import Mathlib

set_option maxHeartbeats 4000000

/-!  A shallow embedding of `main.py` (Project Euler problem 18): the
dynamic-programming trellis builder `compute_trellis` and the backward
path reconstruction `compute_best_path`, together with a specification
of apex-to-cell paths and proofs relating the two. -/

/-- The Python exceptions reachable in the embedded code: out-of-range
list indexing, and `max` applied to an empty sequence.  Neither a
`ShapeError` nor an `EmptyTriangleError` class exists in the code. -/
inductive PyErr where
  | indexError
  | valueError
deriving DecidableEq, Repr

/-- Computations that may raise a Python exception. -/
abbrev M (α : Type) : Type := Except PyErr α

/-- A trellis cell `(best_sum, parent_offset)`. -/
abbrev Cell : Type := Int × Int

/-- Python list index resolution: a non-negative index must be below
the length, a negative index counts from the back; anything else
raises `IndexError`. -/
def pyIdx (n : Nat) (k : Int) : M Nat :=
  if 0 ≤ k then
    if k < (n : Int) then Except.ok k.toNat else Except.error PyErr.indexError
  else
    if 0 ≤ k + (n : Int) then Except.ok (k + (n : Int)).toNat
    else Except.error PyErr.indexError

/-- Python `l[k]`. -/
def pyGet {α : Type} (l : List α) (k : Int) : M α :=
  match pyIdx l.length k with
  | Except.ok j =>
      match l.get? j with
      | some a => Except.ok a
      | none => Except.error PyErr.indexError
  | Except.error e => Except.error e

/-- Python `l[k] = v`. -/
def pySet {α : Type} (l : List α) (k : Int) (v : α) : M (List α) :=
  match pyIdx l.length k with
  | Except.ok j => Except.ok (l.set j v)
  | Except.error e => Except.error e

/-- Python `m[i][j]`. -/
def pyGet2 {α : Type} (m : List (List α)) (i j : Int) : M α := do
  let row ← pyGet m i
  pyGet row j

/-- Python `m[i][j] = v` (fetch row `i`, update it in place). -/
def pySet2 {α : Type} (m : List (List α)) (i j : Int) (v : α) :
    M (List (List α)) := do
  let row ← pyGet m i
  let row2 ← pySet row j v
  pySet m i row2

/-- Python `>` on `(int, int)` tuples: lexicographic comparison, as the
`key=lambda s: trellis[i-1][j+s]` of `max` on line 94 of main.py
compares whole cells. -/
def tupGt (x y : Cell) : Bool :=
  decide (y.1 < x.1) || (decide (y.1 = x.1) && decide (y.2 < x.2))

/-- Lines 93-96 of main.py, one interior cell `(i, j)`:
`best_s = max([-1, 0], key=lambda s: trellis[i-1][j+s])` (Python `max`
keeps the first maximum, so `-1` wins exact ties of the key tuples),
then `trellis[i][j] = (trellis[i-1][j+best_s][0] + triangle[i][j], best_s)`. -/
def inner_cell (triangle : List (List Int)) (i j : Nat)
    (trellis : List (List Cell)) : M (List (List Cell)) := do
  let left ← pyGet2 trellis ((i : Int) - 1) ((j : Int) + (-1))
  let right ← pyGet2 trellis ((i : Int) - 1) ((j : Int) + 0)
  let best_s : Int := if tupGt right left then 0 else -1
  let this_elt ← pyGet2 triangle (i : Int) (j : Int)
  let parent ← pyGet2 trellis ((i : Int) - 1) ((j : Int) + best_s)
  pySet2 trellis (i : Int) (j : Int) (parent.1 + this_elt, best_s)

/-- Lines 87-96 of main.py, the body of the row loop for one `i`:
leftmost cell, rightmost cell, then the interior cells
`j = 1 .. len(trellis[i]) - 2`. -/
def row_step (triangle : List (List Int)) (trellis : List (List Cell))
    (i : Nat) : M (List (List Cell)) := do
  let a ← pyGet2 trellis ((i : Int) - 1) 0
  let b ← pyGet2 triangle (i : Int) 0
  let tr1 ← pySet2 trellis (i : Int) 0 (a.1 + b, 0)
  let c ← pyGet2 tr1 ((i : Int) - 1) (-1)
  let d ← pyGet2 triangle (i : Int) (-1)
  let tr2 ← pySet2 tr1 (i : Int) (-1) (c.1 + d, -1)
  let row ← pyGet tr2 (i : Int)
  (List.range' 1 (row.length - 2)).foldlM
    (fun tr j => inner_cell triangle i j tr) tr2

/-- Shallow embedding of `compute_trellis` (main.py lines 61-98). -/
def compute_trellis (triangle : List (List Int)) : M (List (List Cell)) := do
  let trellis : List (List Cell) :=
    triangle.map (fun line => line.map (fun _ => ((0 : Int), (0 : Int))))
  let t00 ← pyGet2 triangle 0 0
  let trellis ← pySet2 trellis 0 0 (t00, 1)
  (List.range' 1 (trellis.length - 1)).foldlM
    (fun tr i => row_step triangle tr i) trellis

/-- Line 118 of main.py: `max(enumerate(trellis[-1]), key=lambda x: x[1][0])`.
Python `max` raises `ValueError` on an empty sequence and keeps the
first element attaining the maximum key. -/
def py_max_enum (l : List (Nat × Cell)) : M (Nat × Cell) :=
  match l with
  | [] => Except.error PyErr.valueError
  | x :: xs =>
      Except.ok (xs.foldl (fun best y => if best.2.1 < y.2.1 then y else best) x)

/-- Lines 127-133 of main.py: the backward walk, producing the visited
triangle values bottom-to-top.  Each iteration reads
`triangle[curr_i][curr_j]`, then `trellis[curr_i][curr_j][1]`, steps
`curr_i -= 1; curr_j += step_j`; at row 0 the step is still read but
the loop then exits. -/
def walk (triangle : List (List Int)) (trellis : List (List Cell)) :
    Nat → Int → M (List Int)
  | 0, j => do
      let v ← pyGet2 triangle 0 j
      let _cell ← pyGet2 trellis 0 j
      pure [v]
  | i + 1, j => do
      let v ← pyGet2 triangle ((i : Int) + 1) j
      let cell ← pyGet2 trellis ((i : Int) + 1) j
      let rest ← walk triangle trellis i (j + cell.2)
      pure (v :: rest)

/-- Shallow embedding of `compute_best_path` (main.py lines 101-136). -/
def compute_best_path (triangle : List (List Int))
    (trellis : List (List Cell)) : M (Int × List Int) := do
  let lastRow ← pyGet trellis (-1)
  let endpoint ← py_max_enum lastRow.enum
  let curr_j : Int := (endpoint.1 : Int)
  let best_sum : Int := endpoint.2.1
  let path ← walk triangle trellis (trellis.length - 1) curr_j
  pure (best_sum, path.reverse)

/-! ## Specification-side notions -/

/-- Well-formed triangle: row `i` has exactly `i + 1` entries. -/
def WF (t : List (List Int)) : Prop :=
  ∀ i, i < t.length → (t.getD i []).length = i + 1

instance (t : List (List Int)) : Decidable (WF t) :=
  Nat.decidableBallLT t.length (fun i _ => (t.getD i []).length = i + 1)

/-- The triangle value at row `i`, column `j`. -/
def valAt (t : List (List Int)) (i j : Nat) : Int :=
  (t.getD i []).getD j 0

/-- The trellis cell at row `i`, column `j`. -/
def cellAt (T : List (List Cell)) (i j : Nat) : Cell :=
  (T.getD i []).getD j (0, 0)

/-- All apex-to-`(i, j)` column sequences: the apex is at column 0,
and the column index changes by 0 or 1 at each descending row. -/
def pathsTo : Nat → Nat → List (List Nat)
  | 0, 0 => [[0]]
  | 0, _ + 1 => []
  | i + 1, 0 => (pathsTo i 0).map (fun p => p ++ [0])
  | i + 1, j + 1 =>
      ((pathsTo i j).map (fun p => p ++ [j + 1])) ++
        ((pathsTo i (j + 1)).map (fun p => p ++ [j + 1]))

/-- The sum of triangle values along a column sequence. -/
def pathSum (t : List (List Int)) (p : List Nat) : Int :=
  (p.enum.map (fun q => valAt t q.1 q.2)).sum

/-! ## A functional model of the trellis

The imperative builder is proved below to return exactly this
row-by-row functional description of its result. -/

/-- The value the builder stores at an interior cell, in terms of the
finalized previous row `prev` and the triangle row `line`. -/
def interiorCell (prev : List Cell) (line : List Int) (j : Nat) : Cell :=
  let left := prev.getD (j - 1) (0, 0)
  let right := prev.getD j (0, 0)
  if tupGt right left then (right.1 + line.getD j 0, 0)
  else (left.1 + line.getD j 0, -1)

/-- The value the builder stores at cell `j` of a row below the apex
(for rows of length at least 2, which well-formedness guarantees). -/
def cellModel (prev : List Cell) (line : List Int) (j : Nat) : Cell :=
  if j = 0 then ((prev.getD 0 (0, 0)).1 + line.getD 0 0, 0)
  else if j = line.length - 1 then
    ((prev.getD (prev.length - 1) (0, 0)).1 + line.getD (line.length - 1) 0, -1)
  else interiorCell prev line j

/-- A finalized non-apex trellis row. -/
def modelRow (prev : List Cell) (line : List Int) : List Cell :=
  (List.range line.length).map (cellModel prev line)

/-- Row `r` of the finalized trellis. -/
def modelAt (t : List (List Int)) : Nat → List Cell
  | 0 => [((t.getD 0 []).getD 0 0, 1)]
  | r + 1 => modelRow (modelAt t r) (t.getD (r + 1) [])

/-- The finalized trellis of a well-formed non-empty triangle. -/
def trellisModel (t : List (List Int)) : List (List Cell) :=
  (List.range t.length).map (modelAt t)

/-! ## Basic lemmas about the Python list primitives -/

theorem getD_set_eq {α : Type} {l : List α} {i : Nat} (h : i < l.length)
    (a d : α) : (l.set i a).getD i d = a := by
  rw [List.getD_eq_getElem _ _ (by simpa using h)]
  exact List.getElem_set_self _

theorem getD_set_ne {α : Type} {l : List α} {i j : Nat} (h : i ≠ j)
    (a d : α) : (l.set i a).getD j d = l.getD j d := by
  by_cases hj : j < l.length
  · rw [List.getD_eq_getElem _ _ (by simpa using hj), List.getD_eq_getElem _ _ hj]
    exact List.getElem_set_ne h _
  · rw [List.getD_eq_default _ _ (by simpa using Nat.le_of_not_lt hj),
      List.getD_eq_default _ _ (Nat.le_of_not_lt hj)]

theorem set_getD_self {α : Type} {l : List α} {i : Nat} (h : i < l.length)
    (d : α) : l.set i (l.getD i d) = l := by
  rw [List.getD_eq_getElem _ _ h]
  apply List.ext_getElem (by simp)
  intro n h1 h2
  by_cases hn : i = n
  · subst hn; simp
  · simp [List.getElem_set_ne hn]

theorem pyIdx_coe {n j : Nat} (h : j < n) : pyIdx n (j : Int) = Except.ok j := by
  simp [pyIdx, h]

theorem pyIdx_neg_one {n : Nat} (h : 0 < n) : pyIdx n (-1) = Except.ok (n - 1) := by
  unfold pyIdx
  rw [if_neg (by omega), if_pos (by omega)]
  congr 1
  omega

theorem pyGet_coe {α : Type} {l : List α} {j : Nat} (h : j < l.length) (d : α) :
    pyGet l (j : Int) = Except.ok (l.getD j d) := by
  have h2 : l[j]? = some l[j] := List.getElem?_eq_getElem h
  simp [pyGet, pyIdx_coe h, h2, List.getD_eq_getElem _ _ h]

theorem pyGet_neg_one {α : Type} {l : List α} (h : l ≠ []) (d : α) :
    pyGet l (-1) = Except.ok (l.getD (l.length - 1) d) := by
  have hl : 0 < l.length := List.length_pos.mpr h
  have h3 : l.length - 1 < l.length := by omega
  have h2 : l[l.length - 1]? = some (l[l.length - 1]) := List.getElem?_eq_getElem h3
  simp [pyGet, pyIdx_neg_one hl, h2, List.getD_eq_getElem _ _ h3]

theorem pySet_coe {α : Type} {l : List α} {j : Nat} (h : j < l.length) (v : α) :
    pySet l (j : Int) v = Except.ok (l.set j v) := by
  simp [pySet, pyIdx_coe h]

theorem pySet_neg_one {α : Type} {l : List α} (h : l ≠ []) (v : α) :
    pySet l (-1) v = Except.ok (l.set (l.length - 1) v) := by
  have hl : 0 < l.length := List.length_pos.mpr h
  simp [pySet, pyIdx_neg_one hl]

theorem pyGet2_coe {α : Type} {m : List (List α)} {i j : Nat}
    (hi : i < m.length) (hj : j < (m.getD i []).length) (d : α) :
    pyGet2 m (i : Int) (j : Int) = Except.ok ((m.getD i []).getD j d) := by
  unfold pyGet2
  rw [pyGet_coe hi []]
  show pyGet (m.getD i []) (j : Int) = _
  exact pyGet_coe hj d

theorem pyGet2_neg_one {α : Type} {m : List (List α)} {i : Nat}
    (hi : i < m.length) (hne : m.getD i [] ≠ []) (d : α) :
    pyGet2 m (i : Int) (-1) =
      Except.ok ((m.getD i []).getD ((m.getD i []).length - 1) d) := by
  unfold pyGet2
  rw [pyGet_coe hi []]
  show pyGet (m.getD i []) (-1) = _
  exact pyGet_neg_one hne d

theorem pySet2_coe {α : Type} {m : List (List α)} {i j : Nat}
    (hi : i < m.length) (hj : j < (m.getD i []).length) (v : α) :
    pySet2 m (i : Int) (j : Int) v =
      Except.ok (m.set i ((m.getD i []).set j v)) := by
  unfold pySet2
  rw [pyGet_coe hi []]
  show (pySet (m.getD i []) (j : Int) v).bind (fun row2 => pySet m (i : Int) row2) = _
  rw [pySet_coe hj v]
  show pySet m (i : Int) _ = _
  exact pySet_coe hi _

theorem pySet2_neg_one {α : Type} {m : List (List α)} {i : Nat}
    (hi : i < m.length) (hne : m.getD i [] ≠ []) (v : α) :
    pySet2 m (i : Int) (-1) v =
      Except.ok (m.set i ((m.getD i []).set ((m.getD i []).length - 1) v)) := by
  unfold pySet2
  rw [pyGet_coe hi []]
  show (pySet (m.getD i []) (-1) v).bind (fun row2 => pySet m (i : Int) row2) = _
  rw [pySet_neg_one hne v]
  show pySet m (i : Int) _ = _
  exact pySet_coe hi _

theorem bind_ok {α β : Type} (a : α) (f : α → M β) :
    (Except.ok a : M α) >>= f = f a := rfl

theorem foldl_set_length {α : Type} (v : Nat → α) :
    ∀ (js : List Nat) (r : List α),
      (js.foldl (fun r j => r.set j (v j)) r).length = r.length := by
  intro js
  induction js with
  | nil => intro r; rfl
  | cons j rest ih => intro r; simp only [List.foldl_cons]; rw [ih]; simp

theorem foldl_set_getD {α : Type} (v : Nat → α) (d : α) :
    ∀ (js : List Nat) (r : List α) (k : Nat), k < r.length →
      (js.foldl (fun r j => r.set j (v j)) r).getD k d =
        if k ∈ js then v k else r.getD k d := by
  intro js
  induction js with
  | nil => intro r k _; simp
  | cons j rest ih =>
      intro r k hk
      simp only [List.foldl_cons]
      rw [ih _ _ (by simpa using hk)]
      by_cases hkr : k ∈ rest
      · simp [hkr]
      · by_cases hkj : k = j
        · subst hkj
          rw [if_neg hkr, if_pos (List.mem_cons_self _ _), getD_set_eq hk]
        · rw [if_neg hkr, if_neg (by simp [hkj, hkr]),
            getD_set_ne (fun hh => hkj hh.symm)]

/-- What one interior-cell update does to the trellis: it replaces cell
`(i, j)` by the tuple-max choice `interiorCell` computed from row `i-1`. -/
theorem inner_cell_ok (t : List (List Int)) (tr : List (List Cell)) (i j : Nat)
    (hit : i < t.length) (hi : i < tr.length) (hi1 : 1 ≤ i) (hj1 : 1 ≤ j)
    (hjp : j < (tr.getD (i - 1) []).length)
    (hji : j < (tr.getD i []).length)
    (hjt : j < (t.getD i []).length) :
    inner_cell t i j tr =
      Except.ok (tr.set i ((tr.getD i []).set j
        (interiorCell (tr.getD (i - 1) []) (t.getD i []) j))) := by
  have hi' : i - 1 < tr.length := by omega
  have hj' : j - 1 < (tr.getD (i - 1) []).length := by omega
  have e1 : (i : Int) - 1 = ((i - 1 : Nat) : Int) := by omega
  have e2 : (j : Int) + (-1) = ((j - 1 : Nat) : Int) := by omega
  have e3 : (j : Int) + 0 = (j : Int) := by ring
  unfold inner_cell
  rw [e1, e2, e3, pyGet2_coe hi' hj' (0, 0), pyGet2_coe hi' hjp (0, 0)]
  simp only [bind_ok]
  by_cases hgt : tupGt ((tr.getD (i - 1) []).getD j (0, 0))
      ((tr.getD (i - 1) []).getD (j - 1) (0, 0))
  · rw [if_pos hgt, pyGet2_coe hit hjt 0]
    simp only [bind_ok]
    rw [e3, pyGet2_coe hi' hjp (0, 0)]
    simp only [bind_ok]
    rw [pySet2_coe hi hji]
    simp only [interiorCell]
    rw [if_pos hgt]
  · rw [if_neg hgt, pyGet2_coe hit hjt 0]
    simp only [bind_ok]
    rw [e2, pyGet2_coe hi' hj' (0, 0)]
    simp only [bind_ok]
    rw [pySet2_coe hi hji]
    simp only [interiorCell]
    rw [if_neg hgt]

/-- What the interior-cell loop does: it writes `interiorCell` at every
index it visits, leaving the rest of row `i` and all other rows alone. -/
theorem fold_inner_ok (t : List (List Int)) (i : Nat) (prev : List Cell) :
    ∀ (js : List Nat) (tr : List (List Cell)),
      i < t.length → i < tr.length → 1 ≤ i →
      tr.getD (i - 1) [] = prev →
      (∀ j ∈ js, 1 ≤ j ∧ j < prev.length ∧ j < (tr.getD i []).length ∧
        j < (t.getD i []).length) →
      (js.foldlM (fun tr j => inner_cell t i j tr) tr : M (List (List Cell))) =
        Except.ok (tr.set i (js.foldl
          (fun r j => r.set j (interiorCell prev (t.getD i []) j))
          (tr.getD i []))) := by
  intro js
  induction js with
  | nil =>
      intro tr hit hi _ _ _
      simp only [List.foldlM_nil, List.foldl_nil]
      rw [set_getD_self hi]
      rfl
  | cons j rest ih =>
      intro tr hit hi hi1 hprev hall
      obtain ⟨hj1, hjp, hji, hjt⟩ := hall j (by simp)
      simp only [List.foldlM_cons]
      rw [inner_cell_ok t tr i j hit hi hi1 hj1 (hprev ▸ hjp) hji hjt]
      simp only [bind_ok]
      rw [hprev]
      rw [ih (tr.set i ((tr.getD i []).set j (interiorCell prev (t.getD i []) j)))
        hit (by simpa using hi) hi1
        (by rw [getD_set_ne (by omega)]; exact hprev)
        (by
          intro j2 hj2
          obtain ⟨h1, h2, h3, h4⟩ := hall j2 (by simp [hj2])
          refine ⟨h1, h2, ?_, h4⟩
          rw [getD_set_eq hi]
          simpa using h3)]
      rw [List.set_set, getD_set_eq hi]
      simp only [List.foldl_cons]

theorem pyGet2_zero {α : Type} {m : List (List α)} {i : Nat}
    (hi : i < m.length) (hne : 0 < (m.getD i []).length) (d : α) :
    pyGet2 m (i : Int) 0 = Except.ok ((m.getD i []).getD 0 d) := by
  have h := pyGet2_coe (j := 0) hi hne d
  simpa using h

theorem pySet2_zero {α : Type} {m : List (List α)} {i : Nat}
    (hi : i < m.length) (hne : 0 < (m.getD i []).length) (v : α) :
    pySet2 m (i : Int) 0 v = Except.ok (m.set i ((m.getD i []).set 0 v)) := by
  have h := pySet2_coe (j := 0) hi hne v
  simpa using h

theorem modelRow_length (prev : List Cell) (line : List Int) :
    (modelRow prev line).length = line.length := by
  simp [modelRow]

theorem modelRow_getD (prev : List Cell) (line : List Int) {k : Nat}
    (hk : k < line.length) (d : Cell) :
    (modelRow prev line).getD k d = cellModel prev line k := by
  rw [List.getD_eq_getElem _ _ (by simpa [modelRow] using hk)]
  simp [modelRow]

/-- What one pass of the row loop does: it replaces row `i` of the
trellis by the finalized row `modelRow`, computed from row `i-1`. -/
theorem row_step_ok (t : List (List Int)) (tr : List (List Cell)) (i : Nat)
    (hlen : tr.length = t.length)
    (hrows : ∀ k, k < t.length → (tr.getD k []).length = (t.getD k []).length)
    (hwf : WF t) (hi1 : 1 ≤ i) (hin : i < t.length) :
    row_step t tr i =
      Except.ok (tr.set i (modelRow (tr.getD (i - 1) []) (t.getD i []))) := by
  have hi : i < tr.length := by omega
  have hi' : i - 1 < tr.length := by omega
  have hii' : i ≠ i - 1 := by omega
  have hprevlen : (tr.getD (i - 1) []).length = i := by
    rw [hrows _ (by omega), hwf _ (by omega)]
    omega
  have hrowlen : (tr.getD i []).length = i + 1 := by rw [hrows _ hin, hwf _ hin]
  have htlen : (t.getD i []).length = i + 1 := hwf _ hin
  have e1 : (i : Int) - 1 = ((i - 1 : Nat) : Int) := by omega
  unfold row_step
  rw [e1, pyGet2_zero hi' (by omega) (0, 0)]
  simp only [bind_ok]
  rw [pyGet2_zero hin (by omega) 0]
  simp only [bind_ok]
  rw [pySet2_zero hi (by omega)]
  simp only [bind_ok]
  have s4 : pyGet2 (tr.set i ((tr.getD i []).set 0
        (((tr.getD (i - 1) []).getD 0 (0, 0)).1 + (t.getD i []).getD 0 0, 0)))
        ((i - 1 : Nat) : Int) (-1) =
      Except.ok ((tr.getD (i - 1) []).getD (i - 1) (0, 0)) := by
    rw [pyGet2_neg_one (by simpa using hi')
      (by
        rw [getD_set_ne hii']
        exact List.ne_nil_of_length_pos (by omega)) (0, 0)]
    rw [getD_set_ne hii', hprevlen]
  rw [s4]
  simp only [bind_ok]
  have s5 : pyGet2 t (i : Int) (-1) = Except.ok ((t.getD i []).getD i 0) := by
    rw [pyGet2_neg_one hin (List.ne_nil_of_length_pos (by omega)) 0, htlen]
    simp
  rw [s5]
  simp only [bind_ok]
  have s6 : pySet2 (tr.set i ((tr.getD i []).set 0
        (((tr.getD (i - 1) []).getD 0 (0, 0)).1 + (t.getD i []).getD 0 0, 0)))
        (i : Int) (-1)
        (((tr.getD (i - 1) []).getD (i - 1) (0, 0)).1 + (t.getD i []).getD i 0, -1) =
      Except.ok (tr.set i (((tr.getD i []).set 0
        (((tr.getD (i - 1) []).getD 0 (0, 0)).1 + (t.getD i []).getD 0 0, 0)).set i
        (((tr.getD (i - 1) []).getD (i - 1) (0, 0)).1 + (t.getD i []).getD i 0, -1))) := by
    rw [pySet2_neg_one (by simpa using hi)
      (by
        rw [getD_set_eq hi]
        exact List.ne_nil_of_length_pos (by simp only [List.length_set]; omega))]
    rw [getD_set_eq hi, List.set_set]
    simp only [List.length_set]
    rw [hrowlen]
    simp
  rw [s6]
  simp only [bind_ok]
  have s7 : pyGet (tr.set i (((tr.getD i []).set 0
        (((tr.getD (i - 1) []).getD 0 (0, 0)).1 + (t.getD i []).getD 0 0, 0)).set i
        (((tr.getD (i - 1) []).getD (i - 1) (0, 0)).1 + (t.getD i []).getD i 0, -1)))
        (i : Int) =
      Except.ok (((tr.getD i []).set 0
        (((tr.getD (i - 1) []).getD 0 (0, 0)).1 + (t.getD i []).getD 0 0, 0)).set i
        (((tr.getD (i - 1) []).getD (i - 1) (0, 0)).1 + (t.getD i []).getD i 0, -1)) := by
    rw [pyGet_coe (by simpa using hi) []]
    rw [getD_set_eq hi]
  rw [s7]
  simp only [bind_ok]
  rw [show (((tr.getD i []).set 0
        (((tr.getD (i - 1) []).getD 0 (0, 0)).1 + (t.getD i []).getD 0 0, 0)).set i
        (((tr.getD (i - 1) []).getD (i - 1) (0, 0)).1 + (t.getD i []).getD i 0, -1)).length
      = i + 1 from by simp only [List.length_set]; omega]
  rw [show i + 1 - 2 = i - 1 from by omega]
  rw [fold_inner_ok t i (tr.getD (i - 1) []) (List.range' 1 (i - 1))
    (tr.set i (((tr.getD i []).set 0
        (((tr.getD (i - 1) []).getD 0 (0, 0)).1 + (t.getD i []).getD 0 0, 0)).set i
        (((tr.getD (i - 1) []).getD (i - 1) (0, 0)).1 + (t.getD i []).getD i 0, -1)))
    hin (by simpa using hi) hi1
    (by rw [getD_set_ne hii'])
    (by
      intro j hj
      rw [List.mem_range'_1] at hj
      refine ⟨hj.1, by omega, ?_, by omega⟩
      rw [getD_set_eq hi]
      simp only [List.length_set]
      omega)]
  rw [List.set_set, getD_set_eq hi]
  have hfinal : (List.range' 1 (i - 1)).foldl
      (fun r j => r.set j (interiorCell (tr.getD (i - 1) []) (t.getD i []) j))
      (((tr.getD i []).set 0
        (((tr.getD (i - 1) []).getD 0 (0, 0)).1 + (t.getD i []).getD 0 0, 0)).set i
        (((tr.getD (i - 1) []).getD (i - 1) (0, 0)).1 + (t.getD i []).getD i 0, -1)) =
      modelRow (tr.getD (i - 1) []) (t.getD i []) := by
    apply List.ext_getElem
    · rw [foldl_set_length, modelRow_length, htlen]
      simp only [List.length_set]
      omega
    · intro k hk1 hk2
      have hk : k < i + 1 := by
        rw [foldl_set_length] at hk1
        simp only [List.length_set] at hk1
        omega
      rw [← List.getD_eq_getElem _ (0, 0) hk1, ← List.getD_eq_getElem _ (0, 0) hk2]
      rw [foldl_set_getD _ (0, 0) _ _ _ (by simp only [List.length_set]; omega)]
      rw [modelRow_getD _ _ (by omega) (0, 0)]
      by_cases hmem : k ∈ List.range' 1 (i - 1)
      · rw [if_pos hmem]
        rw [List.mem_range'_1] at hmem
        simp only [cellModel]
        rw [if_neg (by omega), if_neg (by rw [htlen]; omega)]
      · rw [if_neg hmem]
        rw [List.mem_range'_1] at hmem
        push_neg at hmem
        rcases Nat.eq_zero_or_pos k with hk0 | hkpos
        · subst hk0
          rw [getD_set_ne (by omega), getD_set_eq (by omega)]
          simp [cellModel]
        · have hki : k = i := by
            have := hmem hkpos
            omega
          subst hki
          rw [getD_set_eq (by simp only [List.length_set]; omega)]
          simp only [cellModel]
          rw [if_neg (by omega), if_pos (by rw [htlen]; omega), hprevlen, htlen]
          simp
  rw [hfinal]

theorem pyGet2_zero_zero {α : Type} {m : List (List α)} (hm : 0 < m.length)
    (hne : 0 < (m.getD 0 []).length) (d : α) :
    pyGet2 m 0 0 = Except.ok ((m.getD 0 []).getD 0 d) := by
  have h := pyGet2_coe (i := 0) (j := 0) hm hne d
  simpa using h

theorem pySet2_zero_zero {α : Type} {m : List (List α)} (hm : 0 < m.length)
    (hne : 0 < (m.getD 0 []).length) (v : α) :
    pySet2 m 0 0 v = Except.ok (m.set 0 ((m.getD 0 []).set 0 v)) := by
  have h := pySet2_coe (i := 0) (j := 0) hm hne v
  simpa using h

theorem modelAt_length (t : List (List Int)) (hwf : WF t) (r : Nat)
    (h : r < t.length) : (modelAt t r).length = r + 1 := by
  cases r with
  | zero => rfl
  | succ r =>
      show (modelRow (modelAt t r) (t.getD (r + 1) [])).length = r + 1 + 1
      rw [modelRow_length, hwf _ h]

theorem set_zero_of_length_one {α : Type} {l : List α} (h : l.length = 1)
    (v : α) : l.set 0 v = [v] := by
  cases l with
  | nil => simp at h
  | cons a l2 =>
      cases l2 with
      | nil => rfl
      | cons b l3 => simp at h

/-- The invariant of the row loop of `compute_trellis`: shape matches
the triangle, and all rows up to `k` are finalized. -/
def TrInv (t : List (List Int)) (k : Nat) (tr : List (List Cell)) : Prop :=
  tr.length = t.length ∧
  (∀ r, r < t.length → (tr.getD r []).length = (t.getD r []).length) ∧
  (∀ r, r ≤ k → r < t.length → tr.getD r [] = modelAt t r)

theorem trellis_fold_ok (t : List (List Int)) (hwf : WF t) :
    ∀ (c k : Nat) (tr : List (List Cell)), k + c < t.length → TrInv t k tr →
      ∃ trf, ((List.range' (k + 1) c).foldlM
          (fun tr i => row_step t tr i) tr : M (List (List Cell))) =
        Except.ok trf ∧ TrInv t (k + c) trf := by
  intro c
  induction c with
  | zero =>
      intro k tr _ hinv
      exact ⟨tr, rfl, hinv⟩
  | succ c ih =>
      intro k tr hlt hinv
      obtain ⟨h1, h2, h3⟩ := hinv
      rw [List.range'_succ, List.foldlM_cons]
      rw [row_step_ok t tr (k + 1) h1 h2 hwf (by omega) (by omega)]
      simp only [bind_ok]
      rw [show k + 1 - 1 = k from by omega, h3 k (by omega) (by omega)]
      have hmodel : modelRow (modelAt t k) (t.getD (k + 1) []) = modelAt t (k + 1) := by
        simp [modelAt]
      rw [hmodel]
      have hinv2 : TrInv t (k + 1) (tr.set (k + 1) (modelAt t (k + 1))) := by
        refine ⟨by simpa using h1, ?_, ?_⟩
        · intro r hr
          by_cases hrk : r = k + 1
          · subst hrk
            rw [getD_set_eq (by omega), modelAt_length t hwf _ hr, hwf _ hr]
          · rw [getD_set_ne (fun hh => hrk hh.symm)]
            exact h2 r hr
        · intro r hrk hr
          by_cases hrk2 : r = k + 1
          · subst hrk2
            rw [getD_set_eq (by omega)]
          · rw [getD_set_ne (fun hh => hrk2 hh.symm)]
            exact h3 r (by omega) hr
      obtain ⟨trf, hfold, hinvf⟩ := ih (k + 1) _ (by omega) hinv2
      exact ⟨trf, hfold, by rw [show k + (c + 1) = k + 1 + c from by omega]; exact hinvf⟩

theorem init_row_length (t : List (List Int)) (r : Nat) (h : r < t.length) :
    ((t.map (fun line => line.map (fun _ => ((0 : Int), (0 : Int))))).getD r []).length
      = (t.getD r []).length := by
  rw [List.getD_eq_getElem _ _ (by simpa using h), List.getD_eq_getElem _ _ h]
  simp

theorem eq_trellisModel (t : List (List Int)) (tr : List (List Cell))
    (h1 : tr.length = t.length)
    (h2 : ∀ r, r < t.length → tr.getD r [] = modelAt t r) :
    tr = trellisModel t := by
  apply List.ext_getElem (by simp [trellisModel, h1])
  intro k hk1 hk2
  have hk : k < t.length := by omega
  rw [← List.getD_eq_getElem _ [] hk1, ← List.getD_eq_getElem _ [] hk2]
  rw [h2 k hk]
  rw [List.getD_eq_getElem _ _ (by simpa [trellisModel] using hk)]
  simp [trellisModel]

/-- Refinement: on a well-formed non-empty triangle the imperative
builder returns exactly the functional trellis `trellisModel`. -/
theorem compute_trellis_ok (t : List (List Int)) (hwf : WF t) (hne : t ≠ []) :
    compute_trellis t = Except.ok (trellisModel t) := by
  have hn : 0 < t.length := List.length_pos.mpr hne
  have h00 : (t.getD 0 []).length = 1 := hwf 0 hn
  unfold compute_trellis
  rw [pyGet2_zero_zero hn (by omega) 0]
  simp only [bind_ok]
  rw [pySet2_zero_zero (by simpa using hn) (by rw [init_row_length t 0 hn]; omega)]
  simp only [bind_ok]
  rw [show ((t.map (fun line => line.map (fun _ => ((0 : Int), (0 : Int))))).set 0
      (((t.map (fun line => line.map (fun _ => ((0 : Int), (0 : Int))))).getD 0 []).set 0
        ((t.getD 0 []).getD 0 0, 1))).length = t.length from by simp]
  have hrow0 : ((t.map (fun line => line.map (fun _ => ((0 : Int), (0 : Int))))).getD 0 []).set 0
      ((t.getD 0 []).getD 0 0, 1) = [((t.getD 0 []).getD 0 0, 1)] := by
    apply set_zero_of_length_one
    rw [init_row_length t 0 hn, h00]
  rw [hrow0]
  have hinv : TrInv t 0 ((t.map (fun line => line.map (fun _ => ((0 : Int), (0 : Int))))).set 0
      [((t.getD 0 []).getD 0 0, 1)]) := by
    refine ⟨by simp, ?_, ?_⟩
    · intro r hr
      by_cases hr0 : r = 0
      · subst hr0
        rw [getD_set_eq (by simpa using hn), h00]
        rfl
      · rw [getD_set_ne (fun hh => hr0 hh.symm)]
        exact init_row_length t r hr
    · intro r hr0 hr
      have : r = 0 := by omega
      subst this
      rw [getD_set_eq (by simpa using hn)]
      rfl
  obtain ⟨trf, hfold, hinvf⟩ :=
    trellis_fold_ok t hwf (t.length - 1) 0 _ (by omega) hinv
  rw [show (0 : Nat) + 1 = 1 from rfl] at hfold
  rw [hfold]
  obtain ⟨hf1, _, hf3⟩ := hinvf
  exact congrArg _ (eq_trellisModel t trf hf1 (fun r hr => hf3 r (by omega) hr))

/-! ## Pointwise description of the model trellis -/

/-- The model trellis cell at row `i`, column `j`. -/
def mcell (t : List (List Int)) (i j : Nat) : Cell :=
  (modelAt t i).getD j (0, 0)

theorem cellAt_trellisModel (t : List (List Int)) {i : Nat}
    (hi : i < t.length) (j : Nat) :
    cellAt (trellisModel t) i j = mcell t i j := by
  unfold cellAt mcell trellisModel
  congr 1
  rw [List.getD_eq_getElem _ _ (by simpa using hi)]
  simp

theorem mcell_zero (t : List (List Int)) :
    mcell t 0 0 = (valAt t 0 0, 1) := rfl

theorem mcell_succ (t : List (List Int)) (hwf : WF t) {i j : Nat}
    (hi : i + 1 < t.length) (hj : j ≤ i + 1) :
    mcell t (i + 1) j = cellModel (modelAt t i) (t.getD (i + 1) []) j := by
  unfold mcell
  show (modelRow (modelAt t i) (t.getD (i + 1) [])).getD j (0, 0) = _
  exact modelRow_getD _ _ (by rw [hwf _ hi]; omega) _

theorem mcell_left (t : List (List Int)) (hwf : WF t) {i : Nat}
    (hi : i + 1 < t.length) :
    mcell t (i + 1) 0 = ((mcell t i 0).1 + valAt t (i + 1) 0, 0) := by
  rw [mcell_succ t hwf hi (by omega)]
  unfold cellModel
  rw [if_pos rfl]
  rfl

theorem mcell_right (t : List (List Int)) (hwf : WF t) {i : Nat}
    (hi : i + 1 < t.length) :
    mcell t (i + 1) (i + 1) = ((mcell t i i).1 + valAt t (i + 1) (i + 1), -1) := by
  rw [mcell_succ t hwf hi (by omega)]
  simp only [cellModel]
  rw [if_neg (by omega), if_pos (by rw [hwf _ hi]; omega)]
  rw [modelAt_length t hwf i (by omega), hwf _ hi]
  simp only [Nat.add_sub_cancel]
  rfl

theorem mcell_interior (t : List (List Int)) (hwf : WF t) {i j : Nat}
    (hi : i + 1 < t.length) (hj1 : 1 ≤ j) (hj2 : j ≤ i) :
    mcell t (i + 1) j = interiorCell (modelAt t i) (t.getD (i + 1) []) j := by
  rw [mcell_succ t hwf hi (by omega)]
  simp only [cellModel]
  rw [if_neg (by omega), if_neg (by rw [hwf _ hi]; omega)]

theorem interior_fst (prev : List Cell) (line : List Int) (j : Nat) :
    (interiorCell prev line j).1 =
      max (prev.getD (j - 1) (0, 0)).1 (prev.getD j (0, 0)).1 + line.getD j 0 := by
  unfold interiorCell
  by_cases h : tupGt (prev.getD j (0, 0)) (prev.getD (j - 1) (0, 0)) = true
  · rw [if_pos h]
    unfold tupGt at h
    simp only [Bool.or_eq_true, Bool.and_eq_true, decide_eq_true_eq] at h
    have hle : (prev.getD (j - 1) (0, 0)).1 ≤ (prev.getD j (0, 0)).1 := by
      rcases h with h | ⟨h, _⟩
      · omega
      · omega
    rw [max_eq_right hle]
  · rw [if_neg h]
    unfold tupGt at h
    simp only [Bool.or_eq_true, Bool.and_eq_true, decide_eq_true_eq, not_or,
      not_and, Int.not_lt] at h
    rw [max_eq_left h.1]

theorem interior_snd (prev : List Cell) (line : List Int) (j : Nat) :
    ((interiorCell prev line j).2 = -1 ∧
      ¬ tupGt (prev.getD j (0, 0)) (prev.getD (j - 1) (0, 0))) ∨
    ((interiorCell prev line j).2 = 0 ∧
      tupGt (prev.getD j (0, 0)) (prev.getD (j - 1) (0, 0))) := by
  unfold interiorCell
  by_cases h : tupGt (prev.getD j (0, 0)) (prev.getD (j - 1) (0, 0)) = true
  · rw [if_pos h]
    exact Or.inr ⟨rfl, h⟩
  · rw [if_neg h]
    exact Or.inl ⟨rfl, by simpa using h⟩

/-! ## Lemmas about apex-to-cell paths -/

theorem pathsTo_nil {j : Nat} : ∀ {i : Nat}, i < j → pathsTo i j = [] := by
  intro i
  induction i generalizing j with
  | zero =>
      intro h
      cases j with
      | zero => omega
      | succ j2 => rfl
  | succ i ih =>
      intro h
      cases j with
      | zero => omega
      | succ j2 =>
          show (pathsTo i j2).map (fun p => p ++ [j2 + 1]) ++
            (pathsTo i (j2 + 1)).map (fun p => p ++ [j2 + 1]) = []
          rw [ih (by omega), ih (by omega)]
          rfl

theorem pathsTo_mem_succ {i j : Nat} {p : List Nat} (h : p ∈ pathsTo (i + 1) j) :
    ∃ j2 q, q ∈ pathsTo i j2 ∧ p = q ++ [j] ∧ (j2 = j ∨ j2 + 1 = j) := by
  cases j with
  | zero =>
      simp only [pathsTo, List.mem_map] at h
      obtain ⟨q, hq, rfl⟩ := h
      exact ⟨0, q, hq, rfl, Or.inl rfl⟩
  | succ j2 =>
      simp only [pathsTo, List.mem_append, List.mem_map] at h
      rcases h with ⟨q, hq, rfl⟩ | ⟨q, hq, rfl⟩
      · exact ⟨j2, q, hq, rfl, Or.inr rfl⟩
      · exact ⟨j2 + 1, q, hq, rfl, Or.inl rfl⟩

theorem pathsTo_mem_intro {i j j2 : Nat} {q : List Nat} (hq : q ∈ pathsTo i j2)
    (hstep : j2 = j ∨ j2 + 1 = j) : q ++ [j] ∈ pathsTo (i + 1) j := by
  cases j with
  | zero =>
      have hj2 : j2 = 0 := by omega
      subst hj2
      simp only [pathsTo, List.mem_map]
      exact ⟨q, hq, rfl⟩
  | succ j3 =>
      simp only [pathsTo, List.mem_append, List.mem_map]
      rcases hstep with h | h
      · subst h
        exact Or.inr ⟨q, hq, rfl⟩
      · have hj2 : j2 = j3 := by omega
        subst hj2
        exact Or.inl ⟨q, hq, rfl⟩

theorem pathsTo_length : ∀ {i j : Nat} {p : List Nat}, p ∈ pathsTo i j →
    p.length = i + 1 := by
  intro i
  induction i with
  | zero =>
      intro j p h
      cases j with
      | zero =>
          simp only [pathsTo, List.mem_singleton] at h
          subst h
          rfl
      | succ j2 => simp [pathsTo] at h
  | succ i ih =>
      intro j p h
      obtain ⟨j2, q, hq, rfl, _⟩ := pathsTo_mem_succ h
      simp [ih hq]

theorem pathSum_append (t : List (List Int)) (p : List Nat) (c : Nat) :
    pathSum t (p ++ [c]) = pathSum t p + valAt t p.length c := by
  unfold pathSum
  rw [List.enum_append]
  simp

theorem pathSum_single (t : List (List Int)) (c : Nat) :
    pathSum t [c] = valAt t 0 c := by
  simp [pathSum]

theorem pathsTo_last : ∀ {i j : Nat} {p : List Nat}, p ∈ pathsTo i j →
    p.getD i 0 = j := by
  intro i
  induction i with
  | zero =>
      intro j p h
      cases j with
      | zero =>
          simp only [pathsTo, List.mem_singleton] at h
          subst h
          rfl
      | succ j2 => simp [pathsTo] at h
  | succ i ih =>
      intro j p h
      obtain ⟨j2, q, hq, rfl, _⟩ := pathsTo_mem_succ h
      have hlen : q.length = i + 1 := pathsTo_length hq
      rw [List.getD_append_right _ _ _ _ (by omega), hlen]
      simp

theorem pathsTo_col_le : ∀ {i j : Nat} {p : List Nat}, p ∈ pathsTo i j →
    ∀ k, k ≤ i → p.getD k 0 ≤ k := by
  intro i
  induction i with
  | zero =>
      intro j p h k hk
      cases j with
      | zero =>
          simp only [pathsTo, List.mem_singleton] at h
          subst h
          have hk0 : k = 0 := by omega
          subst hk0
          simp
      | succ j2 => simp [pathsTo] at h
  | succ i ih =>
      intro j p h k hk
      obtain ⟨j2, q, hq, rfl, hstep⟩ := pathsTo_mem_succ h
      have hlen : q.length = i + 1 := pathsTo_length hq
      by_cases hki : k ≤ i
      · rw [List.getD_append _ _ _ _ (by omega)]
        exact ih hq k hki
      · have hk2 : k = i + 1 := by omega
        subst hk2
        rw [List.getD_append_right _ _ _ _ (by omega), hlen]
        simp only [Nat.sub_self, List.getD_cons_zero]
        have hj2 : j2 ≤ i := by
          by_contra hcon
          rw [pathsTo_nil (by omega)] at hq
          exact absurd hq (List.not_mem_nil q)
        omega

theorem pathsTo_adjacent : ∀ {i j : Nat} {p : List Nat}, p ∈ pathsTo i j →
    ∀ k, k < i → p.getD (k + 1) 0 = p.getD k 0 ∨
      p.getD (k + 1) 0 = p.getD k 0 + 1 := by
  intro i
  induction i with
  | zero => intro j p _ k hk; omega
  | succ i ih =>
      intro j p h k hk
      obtain ⟨j2, q, hq, rfl, hstep⟩ := pathsTo_mem_succ h
      have hlen : q.length = i + 1 := pathsTo_length hq
      by_cases hki : k + 1 ≤ i
      · rw [List.getD_append _ _ _ _ (by omega), List.getD_append _ _ _ _ (by omega)]
        exact ih hq k (by omega)
      · have hk2 : k = i := by omega
        rw [hk2]
        rw [List.getD_append_right _ _ _ _ (by omega), hlen]
        rw [List.getD_append _ _ _ _ (by omega)]
        simp only [Nat.sub_self, List.getD_cons_zero]
        have hlast : q.getD i 0 = j2 := pathsTo_last hq
        rw [hlast]
        rcases hstep with hs | hs
        · subst hs; left; rfl
        · right; omega

/-- DP correctness of the functional model: the first component of
`mcell t i j` is the maximum of `pathSum` over all apex-to-`(i, j)` paths
(attained, and an upper bound). -/
theorem model_best_spec (t : List (List Int)) (hwf : WF t) :
    ∀ i, i < t.length → ∀ j, j ≤ i →
      (∃ p ∈ pathsTo i j, pathSum t p = (mcell t i j).1) ∧
      (∀ p ∈ pathsTo i j, pathSum t p ≤ (mcell t i j).1) := by
  intro i
  induction i with
  | zero =>
      intro _ j hj
      have hj0 : j = 0 := by omega
      subst hj0
      constructor
      · exact ⟨[0], by simp [pathsTo], by rw [pathSum_single, mcell_zero]⟩
      · intro p hp
        simp only [pathsTo, List.mem_singleton] at hp
        subst hp
        rw [pathSum_single, mcell_zero]
  | succ i ih =>
      intro hi j hj
      have hi2 : i < t.length := by omega
      rcases Nat.eq_zero_or_pos j with hj0 | hjpos
      · subst hj0
        obtain ⟨⟨p0, hp0, hs0⟩, hub⟩ := ih hi2 0 (by omega)
        rw [mcell_left t hwf hi]
        constructor
        · refine ⟨p0 ++ [0], pathsTo_mem_intro hp0 (Or.inl rfl), ?_⟩
          rw [pathSum_append, pathsTo_length hp0, hs0]
        · intro p hp
          obtain ⟨j2, q, hq, rfl, hstep⟩ := pathsTo_mem_succ hp
          have hj2 : j2 = 0 := by omega
          subst hj2
          rw [pathSum_append, pathsTo_length hq]
          exact add_le_add_right (hub q hq) _
      · rcases Nat.lt_or_ge j (i + 1) with hjint | hjtop
        · have hji : j ≤ i := by omega
          have hj1 : 1 ≤ j := hjpos
          obtain ⟨⟨pl, hpl, hsl⟩, hubl⟩ := ih hi2 (j - 1) (by omega)
          obtain ⟨⟨pr, hpr, hsr⟩, hubr⟩ := ih hi2 j hji
          have hcell : (mcell t (i + 1) j).1
              = max (mcell t i (j - 1)).1 (mcell t i j).1 + valAt t (i + 1) j := by
            rw [mcell_interior t hwf hi hj1 hji, interior_fst]
            rfl
          constructor
          · rcases max_cases (mcell t i (j - 1)).1 (mcell t i j).1 with
              ⟨hmax, _⟩ | ⟨hmax, _⟩
            · refine ⟨pl ++ [j], pathsTo_mem_intro hpl (Or.inr (by omega)), ?_⟩
              rw [pathSum_append, pathsTo_length hpl, hsl, hcell, hmax]
            · refine ⟨pr ++ [j], pathsTo_mem_intro hpr (Or.inl rfl), ?_⟩
              rw [pathSum_append, pathsTo_length hpr, hsr, hcell, hmax]
          · intro p hp
            obtain ⟨j2, q, hq, rfl, hstep⟩ := pathsTo_mem_succ hp
            rw [pathSum_append, pathsTo_length hq, hcell]
            rcases hstep with hs | hs
            · subst hs
              exact add_le_add_right (le_trans (hubr q hq) (le_max_right _ _)) _
            · have hj2 : j2 = j - 1 := by omega
              exact add_le_add_right
                (le_trans (hubl q (hj2 ▸ hq)) (le_max_left _ _)) _
        · have hjeq : j = i + 1 := by omega
          subst hjeq
          obtain ⟨⟨p0, hp0, hs0⟩, hub⟩ := ih hi2 i (by omega)
          rw [mcell_right t hwf hi]
          constructor
          · refine ⟨p0 ++ [i + 1], pathsTo_mem_intro hp0 (Or.inr rfl), ?_⟩
            rw [pathSum_append, pathsTo_length hp0, hs0]
          · intro p hp
            obtain ⟨j2, q, hq, rfl, hstep⟩ := pathsTo_mem_succ hp
            have hj3 : j2 = i := by
              rcases hstep with hs | hs
              · exfalso
                rw [hs, pathsTo_nil (by omega)] at hq
                exact absurd hq (List.not_mem_nil q)
              · omega
            subst hj3
            rw [pathSum_append, pathsTo_length hq]
            exact add_le_add_right (hub q hq) _

/-- Invariant of Python `max`'s left fold: the running best has index
below the unprocessed indices; the result is the running best or a
later element strictly greater, is an upper bound of everything, and
every element at an index below the winner is strictly smaller (the
first maximum wins). -/
theorem foldl_max_spec (row : List Cell) :
    ∀ (k : Nat) (b r : Nat × Cell), b.1 < k →
      (List.enumFrom k row).foldl
        (fun best y => if best.2.1 < y.2.1 then y else best) b = r →
      (r = b ∨ ∃ m, m < row.length ∧ r = (k + m, row.getD m (0, 0)) ∧
        b.2.1 < r.2.1) ∧
      b.2.1 ≤ r.2.1 ∧
      (∀ m, m < row.length → (row.getD m (0, 0)).1 ≤ r.2.1) ∧
      (∀ m, m < row.length → k + m < r.1 → (row.getD m (0, 0)).1 < r.2.1) := by
  induction row with
  | nil =>
      intro k b r hbk hr
      simp only [List.enumFrom, List.foldl_nil] at hr
      subst hr
      refine ⟨Or.inl rfl, le_refl _, ?_, ?_⟩
      · intro m hm
        simp at hm
      · intro m hm
        simp at hm
  | cons c cs ih =>
      intro k b r hbk hr
      rw [List.enumFrom_cons, List.foldl_cons] at hr
      by_cases hc : b.2.1 < c.1
      · rw [if_pos hc] at hr
        obtain ⟨ha, hb, hcc, hd⟩ := ih (k + 1) (k, c) r (by omega) hr
        refine ⟨?_, le_trans (le_of_lt hc) hb, ?_, ?_⟩
        · right
          rcases ha with ha | ⟨m, hm, hre, hlt⟩
          · exact ⟨0, by simp, by rw [ha]; simp, by rw [ha]; exact hc⟩
          · refine ⟨m + 1, by simpa using hm, ?_, lt_trans hc hlt⟩
            rw [hre]
            simp only [Prod.ext_iff, List.getD_cons_succ]
            exact ⟨by omega, trivial⟩
        · intro m hm
          cases m with
          | zero =>
              simp only [List.getD_cons_zero]
              exact hb
          | succ m => simp only [List.getD_cons_succ]; exact hcc m (by simpa using hm)
        · intro m hm hmr
          cases m with
          | zero =>
              rcases ha with ha | ⟨m2, hm2, hre, hlt⟩
              · exfalso
                rw [ha] at hmr
                simp at hmr
              · simp only [List.getD_cons_zero]
                exact hlt
          | succ m =>
              simp only [List.getD_cons_succ]
              exact hd m (by simpa using hm) (by omega)
      · rw [if_neg hc] at hr
        obtain ⟨ha, hb, hcc, hd⟩ := ih (k + 1) b r (by omega) hr
        refine ⟨?_, hb, ?_, ?_⟩
        · rcases ha with ha | ⟨m, hm, hre, hlt⟩
          · exact Or.inl ha
          · right
            refine ⟨m + 1, by simpa using hm, ?_, hlt⟩
            rw [hre]
            simp only [Prod.ext_iff, List.getD_cons_succ]
            exact ⟨by omega, trivial⟩
        · intro m hm
          cases m with
          | zero =>
              simp only [List.getD_cons_zero]
              exact le_trans (Int.not_lt.mp hc) hb
          | succ m => simp only [List.getD_cons_succ]; exact hcc m (by simpa using hm)
        · intro m hm hmr
          cases m with
          | zero =>
              rcases ha with ha | ⟨m2, hm2, hre, hlt⟩
              · exfalso
                rw [ha] at hmr
                omega
              · simp only [List.getD_cons_zero]
                exact lt_of_le_of_lt (Int.not_lt.mp hc) hlt
          | succ m =>
              simp only [List.getD_cons_succ]
              exact hd m (by simpa using hm) (by omega)

/-- `py_max_enum` on the enumeration of a non-empty row returns the
first cell whose `best_sum` is maximal, with its index. -/
theorem py_max_enum_spec (row : List Cell) (hne : row ≠ []) :
    ∃ ep, py_max_enum row.enum = Except.ok ep ∧
      ep.1 < row.length ∧ row.getD ep.1 (0, 0) = ep.2 ∧
      (∀ m, m < row.length → (row.getD m (0, 0)).1 ≤ ep.2.1) ∧
      (∀ m, m < ep.1 → (row.getD m (0, 0)).1 < ep.2.1) := by
  cases row with
  | nil => exact absurd rfl hne
  | cons c cs =>
      obtain ⟨ha, hb, hcc, hd⟩ := foldl_max_spec cs 1 (0, c)
        ((List.enumFrom 1 cs).foldl
          (fun best y => if best.2.1 < y.2.1 then y else best) (0, c))
        (by omega) rfl
      refine ⟨_, rfl, ?_, ?_, ?_, ?_⟩
      · rcases ha with ha | ⟨m, hm, hre, _⟩
        · rw [ha]
          simp
        · rw [hre]
          show 1 + m < (c :: cs).length
          simp only [List.length_cons]
          omega
      · rcases ha with ha | ⟨m, hm, hre, _⟩
        · rw [ha]
          rfl
        · rw [hre]
          show (c :: cs).getD (1 + m) (0, 0) = cs.getD m (0, 0)
          rw [Nat.add_comm 1 m, List.getD_cons_succ]
      · intro m hm
        cases m with
        | zero =>
            simp only [List.getD_cons_zero]
            exact hb
        | succ m => simp only [List.getD_cons_succ]; exact hcc m (by simpa using hm)
      · intro m hm
        cases m with
        | zero =>
            rcases ha with ha | ⟨m2, hm2, hre, hlt⟩
            · exfalso
              rw [ha] at hm
              simp at hm
            · simp only [List.getD_cons_zero]
              exact hlt
        | succ m =>
            simp only [List.getD_cons_succ]
            rcases ha with ha | ⟨m2, hm2, hre, hlt⟩
            · exfalso
              rw [ha] at hm
              simp at hm
            · rw [hre] at hm hd ⊢
              simp only [] at hm hd ⊢
              exact hd m (by omega) (by omega)

theorem trellisModel_length (t : List (List Int)) :
    (trellisModel t).length = t.length := by
  simp [trellisModel]

theorem trellisModel_getD (t : List (List Int)) {i : Nat} (hi : i < t.length) :
    (trellisModel t).getD i [] = modelAt t i := by
  rw [List.getD_eq_getElem _ _ (by simpa [trellisModel] using hi)]
  simp [trellisModel]

theorem pyGet2_model (t : List (List Int)) (hwf : WF t) {i j : Nat}
    (hi : i < t.length) (hj : j ≤ i) :
    pyGet2 (trellisModel t) (i : Int) (j : Int) = Except.ok (mcell t i j) := by
  have h1 : i < (trellisModel t).length := by rw [trellisModel_length]; omega
  have h2 : j < ((trellisModel t).getD i []).length := by
    rw [trellisModel_getD t hi, modelAt_length t hwf i hi]
    omega
  rw [pyGet2_coe h1 h2 (0, 0), trellisModel_getD t hi]
  rfl

theorem pyGet2_tri (t : List (List Int)) (hwf : WF t) {i j : Nat}
    (hi : i < t.length) (hj : j ≤ i) :
    pyGet2 t (i : Int) (j : Int) = Except.ok (valAt t i j) := by
  have h2 : j < (t.getD i []).length := by rw [hwf _ hi]; omega
  exact pyGet2_coe hi h2 0

theorem enum_map_append_reverse (f : Nat × Nat → Int) (p : List Nat) (c : Nat) :
    ((p ++ [c]).enum.map f).reverse = f (p.length, c) :: (p.enum.map f).reverse := by
  rw [List.enum_append]
  simp

/-- The backward walk on the model trellis: started in bounds at
`(i, j)`, it succeeds and returns (bottom-to-top) the values of an
apex-to-`(i, j)` path whose sum is the cell's `best_sum`. -/
theorem walk_model (t : List (List Int)) (hwf : WF t) :
    ∀ i, i < t.length → ∀ j : Nat, j ≤ i →
      ∃ p ∈ pathsTo i j,
        walk t (trellisModel t) i (j : Int) =
          Except.ok ((p.enum.map (fun q => valAt t q.1 q.2)).reverse) ∧
        pathSum t p = (mcell t i j).1 := by
  intro i
  induction i with
  | zero =>
      intro hi j hj
      have hj0 : j = 0 := by omega
      subst hj0
      refine ⟨[0], by simp [pathsTo], ?_, by rw [pathSum_single, mcell_zero]⟩
      show walk t (trellisModel t) 0 ((0 : Nat) : Int) = _
      simp only [walk]
      rw [show ((0 : Nat) : Int) = ((0 : Int)) from rfl]
      rw [show ((0 : Int)) = ((0 : Nat) : Int) from rfl]
      rw [pyGet2_tri t hwf hi (le_refl 0), pyGet2_model t hwf hi (le_refl 0)]
      simp only [bind_ok]
      rfl
  | succ i ih =>
      intro hi j hj
      have hi2 : i < t.length := by omega
      have ecast : ((i : Int) + 1) = ((i + 1 : Nat) : Int) := by push_cast; ring
      rcases Nat.eq_zero_or_pos j with hj0 | hjpos
      · -- leftmost column: stored offset 0, parent (i, 0)
        subst hj0
        obtain ⟨p0, hp0, hwalk0, hsum0⟩ := ih hi2 0 (by omega)
        refine ⟨p0 ++ [0], pathsTo_mem_intro hp0 (Or.inl rfl), ?_, ?_⟩
        · simp only [walk]
          rw [ecast, pyGet2_tri t hwf hi (by omega),
            pyGet2_model t hwf hi (by omega)]
          simp only [bind_ok]
          rw [mcell_left t hwf hi]
          rw [show ((0 : Nat) : Int) + (0 : Int) = ((0 : Nat) : Int) from by ring]
          rw [hwalk0]
          simp only [bind_ok]
          rw [enum_map_append_reverse, pathsTo_length hp0]
          rfl
        · rw [pathSum_append, pathsTo_length hp0, hsum0, mcell_left t hwf hi]
      · rcases Nat.lt_or_ge j (i + 1) with hjint | hjtop
        · -- interior column: offset from the tuple comparison
          have hji : j ≤ i := by omega
          have hj1 : 1 ≤ j := hjpos
          have hcell : mcell t (i + 1) j =
              interiorCell (modelAt t i) (t.getD (i + 1) []) j :=
            mcell_interior t hwf hi hj1 hji
          by_cases hgt : tupGt ((modelAt t i).getD j (0, 0))
              ((modelAt t i).getD (j - 1) (0, 0))
          · -- RIGHT parent (i, j)
            obtain ⟨p0, hp0, hwalk0, hsum0⟩ := ih hi2 j hji
            have hc2 : mcell t (i + 1) j =
                ((mcell t i j).1 + valAt t (i + 1) j, 0) := by
              rw [hcell]
              unfold interiorCell
              rw [if_pos hgt]
              rfl
            refine ⟨p0 ++ [j], pathsTo_mem_intro hp0 (Or.inl rfl), ?_, ?_⟩
            · simp only [walk]
              rw [ecast, pyGet2_tri t hwf hi (by omega),
                pyGet2_model t hwf hi (by omega)]
              simp only [bind_ok]
              rw [hc2]
              rw [show ((j : Nat) : Int) + (0 : Int) = ((j : Nat) : Int) from by ring]
              rw [hwalk0]
              simp only [bind_ok]
              rw [enum_map_append_reverse, pathsTo_length hp0]
              rfl
            · rw [pathSum_append, pathsTo_length hp0, hsum0, hc2]
          · -- LEFT parent (i, j-1)
            obtain ⟨p0, hp0, hwalk0, hsum0⟩ := ih hi2 (j - 1) (by omega)
            have hc2 : mcell t (i + 1) j =
                ((mcell t i (j - 1)).1 + valAt t (i + 1) j, -1) := by
              rw [hcell]
              unfold interiorCell
              rw [if_neg hgt]
              rfl
            refine ⟨p0 ++ [j], pathsTo_mem_intro hp0 (Or.inr (by omega)), ?_, ?_⟩
            · simp only [walk]
              rw [ecast, pyGet2_tri t hwf hi (by omega),
                pyGet2_model t hwf hi (by omega)]
              simp only [bind_ok]
              rw [hc2]
              rw [show ((j : Nat) : Int) + (-1 : Int) = ((j - 1 : Nat) : Int) from by omega]
              rw [hwalk0]
              simp only [bind_ok]
              rw [enum_map_append_reverse, pathsTo_length hp0]
              rfl
            · rw [pathSum_append, pathsTo_length hp0, hsum0, hc2]
        · -- rightmost column: stored offset -1, parent (i, i)
          have hjeq : j = i + 1 := by omega
          subst hjeq
          obtain ⟨p0, hp0, hwalk0, hsum0⟩ := ih hi2 i (by omega)
          refine ⟨p0 ++ [i + 1], pathsTo_mem_intro hp0 (Or.inr rfl), ?_, ?_⟩
          · simp only [walk]
            rw [ecast, pyGet2_tri t hwf hi (by omega),
              pyGet2_model t hwf hi (by omega)]
            simp only [bind_ok]
            rw [mcell_right t hwf hi]
            rw [show ((i + 1 : Nat) : Int) + (-1 : Int) = ((i : Nat) : Int) from by omega]
            rw [hwalk0]
            simp only [bind_ok]
            rw [enum_map_append_reverse, pathsTo_length hp0]
            rfl
          · rw [pathSum_append, pathsTo_length hp0, hsum0, mcell_right t hwf hi]

theorem modelAt_bottom_length (t : List (List Int)) (hwf : WF t)
    (hne : t ≠ []) : (modelAt t (t.length - 1)).length = t.length := by
  have hn : 0 < t.length := List.length_pos.mpr hne
  rw [modelAt_length t hwf _ (by omega)]
  omega

/-- Everything `compute_best_path` does on the model trellis: the
endpoint is the first bottom-row maximum, the walk succeeds, and the
returned pair is that maximum together with the values of an
apex-to-endpoint path achieving it. -/
theorem compute_best_path_model (t : List (List Int)) (hwf : WF t)
    (hne : t ≠ []) :
    ∃ ep p,
      py_max_enum (modelAt t (t.length - 1)).enum = Except.ok ep ∧
      ep.1 < t.length ∧
      p ∈ pathsTo (t.length - 1) ep.1 ∧
      pathSum t p = (mcell t (t.length - 1) ep.1).1 ∧
      mcell t (t.length - 1) ep.1 = ep.2 ∧
      (∀ m, m < t.length → (mcell t (t.length - 1) m).1 ≤ ep.2.1) ∧
      (∀ m, m < ep.1 → (mcell t (t.length - 1) m).1 < ep.2.1) ∧
      compute_best_path t (trellisModel t) =
        Except.ok (ep.2.1, p.enum.map (fun q => valAt t q.1 q.2)) := by
  have hn : 0 < t.length := List.length_pos.mpr hne
  have hblen : (modelAt t (t.length - 1)).length = t.length :=
    modelAt_bottom_length t hwf hne
  obtain ⟨ep, hep, hlt, hgetD, hub, hmin⟩ :=
    py_max_enum_spec (modelAt t (t.length - 1))
      (List.ne_nil_of_length_pos (by omega))
  rw [hblen] at hlt
  obtain ⟨p, hp, hwalk, hsum⟩ := walk_model t hwf (t.length - 1) (by omega)
    ep.1 (by omega)
  refine ⟨ep, p, hep, hlt, hp, hsum, hgetD, ?_, ?_, ?_⟩
  · intro m hm
    have := hub m (by omega)
    exact this
  · intro m hm
    exact hmin m hm
  · unfold compute_best_path
    rw [pyGet_neg_one (List.ne_nil_of_length_pos (by rw [trellisModel_length]; omega)) []]
    rw [trellisModel_length, trellisModel_getD t (show t.length - 1 < t.length by omega)]
    simp only [bind_ok]
    rw [hep]
    simp only [bind_ok]
    rw [hwalk]
    simp only [bind_ok]
    rw [List.reverse_reverse]
    rfl

/-- Every non-apex model cell stores offset `-1` or `0`, and stepping
by the stored offset from column `j` of row `i+1` lands on a valid
column of row `i`. -/
theorem mcell_step (t : List (List Int)) (hwf : WF t) {i j : Nat}
    (hi : i + 1 < t.length) (hj : j ≤ i + 1) :
    ∃ j2 : Nat, j2 ≤ i ∧ ((j : Int) + (mcell t (i + 1) j).2) = (j2 : Int) ∧
      ((mcell t (i + 1) j).2 = -1 ∨ (mcell t (i + 1) j).2 = 0) := by
  rcases Nat.eq_zero_or_pos j with hj0 | hjpos
  · subst hj0
    rw [mcell_left t hwf hi]
    exact ⟨0, by omega, by ring, Or.inr rfl⟩
  · rcases Nat.lt_or_ge j (i + 1) with hjint | hjtop
    · have hcell := mcell_interior t hwf hi hjpos (by omega)
      by_cases hgt : tupGt ((modelAt t i).getD j (0, 0))
          ((modelAt t i).getD (j - 1) (0, 0))
      · have hc2 : mcell t (i + 1) j =
            (((modelAt t i).getD j (0, 0)).1 + (t.getD (i + 1) []).getD j 0, 0) := by
          rw [hcell]
          unfold interiorCell
          rw [if_pos hgt]
        rw [hc2]
        exact ⟨j, by omega, by ring, Or.inr rfl⟩
      · have hc2 : mcell t (i + 1) j =
            (((modelAt t i).getD (j - 1) (0, 0)).1 + (t.getD (i + 1) []).getD j 0, -1) := by
          rw [hcell]
          unfold interiorCell
          rw [if_neg hgt]
        rw [hc2]
        exact ⟨j - 1, by omega, by omega, Or.inl rfl⟩
    · have hjeq : j = i + 1 := by omega
      subst hjeq
      rw [mcell_right t hwf hi]
      exact ⟨i, le_refl i, by omega, Or.inl rfl⟩

theorem pyGet2_set_apex (t : List (List Int)) (hwf : WF t) (v : Int)
    {r j : Nat} (hr1 : 1 ≤ r) (hr : r < t.length) (hj : j ≤ r) :
    pyGet2 ((trellisModel t).set 0 [(valAt t 0 0, v)]) (r : Int) (j : Int) =
      Except.ok (mcell t r j) := by
  have h1 : r < ((trellisModel t).set 0 [(valAt t 0 0, v)]).length := by
    rw [List.length_set, trellisModel_length]
    omega
  have hroweq : ((trellisModel t).set 0 [(valAt t 0 0, v)]).getD r [] =
      modelAt t r := by
    rw [getD_set_ne (by omega), trellisModel_getD t hr]
  have h2 : j < (((trellisModel t).set 0 [(valAt t 0 0, v)]).getD r []).length := by
    rw [hroweq, modelAt_length t hwf r hr]
    omega
  rw [pyGet2_coe h1 h2 (0, 0), hroweq]
  rfl

/-- The value stored as the apex parent offset is irrelevant to the
backward walk: the walk reads it at row 0 but never uses it. -/
theorem walk_apex_congr (t : List (List Int)) (hwf : WF t) (v : Int) :
    ∀ i, i < t.length → ∀ j : Nat, j ≤ i →
      walk t ((trellisModel t).set 0 [(valAt t 0 0, v)]) i (j : Int) =
        walk t (trellisModel t) i (j : Int) := by
  intro i
  induction i with
  | zero =>
      intro hi j hj
      have hj0 : j = 0 := by omega
      subst hj0
      have hn : 0 < t.length := by omega
      have hset0 : pyGet2 ((trellisModel t).set 0 [(valAt t 0 0, v)])
          (0 : Int) (0 : Int) = Except.ok (valAt t 0 0, v) := by
        have h1 : (0 : Nat) < ((trellisModel t).set 0 [(valAt t 0 0, v)]).length := by
          rw [List.length_set, trellisModel_length]
          omega
        have hrow : ((trellisModel t).set 0 [(valAt t 0 0, v)]).getD 0 [] =
            [(valAt t 0 0, v)] := by
          rw [getD_set_eq (by rw [trellisModel_length]; omega)]
        have h2 : (0 : Nat) < (((trellisModel t).set 0 [(valAt t 0 0, v)]).getD 0 []).length := by
          rw [hrow]
          simp
        have h := pyGet2_coe (i := 0) (j := 0) h1 h2 ((0 : Int), (0 : Int))
        rw [hrow] at h
        simpa using h
      have hmodel0 : pyGet2 (trellisModel t) (0 : Int) (0 : Int) =
          Except.ok (mcell t 0 0) := by
        have h := pyGet2_model t hwf (i := 0) (j := 0) hn (le_refl 0)
        simpa using h
      show walk t _ 0 ((0 : Nat) : Int) = walk t _ 0 ((0 : Nat) : Int)
      simp only [walk]
      rw [show (((0 : Nat)) : Int) = (0 : Int) from rfl]
      rw [hset0, hmodel0]
      simp only [bind_ok]
  | succ i ih =>
      intro hi j hj
      have hi2 : i < t.length := by omega
      have ecast : ((i : Int) + 1) = ((i + 1 : Nat) : Int) := by push_cast; ring
      obtain ⟨j2, hj2, hcast, _⟩ := mcell_step t hwf hi hj
      simp only [walk]
      rw [ecast, pyGet2_tri t hwf hi (by omega),
        pyGet2_set_apex t hwf v (by omega) hi hj,
        pyGet2_model t hwf hi (by omega)]
      simp only [bind_ok]
      rw [hcast, ih hi2 j2 hj2]

/-- The full reconstruction is unchanged if the apex parent offset is
replaced by an arbitrary value. -/
theorem best_path_apex_congr (t : List (List Int)) (hwf : WF t)
    (hne : t ≠ []) (v : Int) :
    compute_best_path t ((trellisModel t).set 0 [(valAt t 0 0, v)]) =
      compute_best_path t (trellisModel t) := by
  have hn : 0 < t.length := List.length_pos.mpr hne
  have hlen' : ((trellisModel t).set 0 [(valAt t 0 0, v)]).length = t.length := by
    rw [List.length_set, trellisModel_length]
  unfold compute_best_path
  rw [pyGet_neg_one (List.ne_nil_of_length_pos (by rw [hlen']; omega)) [],
    pyGet_neg_one (List.ne_nil_of_length_pos (by rw [trellisModel_length]; omega)) []]
  rw [hlen', trellisModel_length,
    trellisModel_getD t (show t.length - 1 < t.length by omega)]
  simp only [bind_ok]
  by_cases hn1 : t.length = 1
  · rw [show t.length - 1 = 0 from by omega]
    rw [getD_set_eq (by rw [trellisModel_length]; omega)]
    rw [show modelAt t 0 = [(valAt t 0 0, 1)] from rfl]
    rw [show py_max_enum ([(valAt t 0 0, v)] : List Cell).enum =
      Except.ok ((0 : Nat), ((valAt t 0 0 : Int), v)) from rfl]
    rw [show py_max_enum ([(valAt t 0 0, 1)] : List Cell).enum =
      Except.ok ((0 : Nat), ((valAt t 0 0 : Int), (1 : Int))) from rfl]
    simp only [bind_ok]
    have hwalkeq := walk_apex_congr t hwf v 0 (by omega) 0 (le_refl 0)
    rw [hwalkeq]
  · rw [getD_set_ne (show (0 : Nat) ≠ t.length - 1 by omega),
      trellisModel_getD t (show t.length - 1 < t.length by omega)]
    obtain ⟨ep, hep, hlt, _, _, _⟩ :=
      py_max_enum_spec (modelAt t (t.length - 1))
        (List.ne_nil_of_length_pos (by rw [modelAt_bottom_length t hwf hne]; omega))
    rw [hep]
    simp only [bind_ok]
    have hlt2 : ep.1 ≤ t.length - 1 := by
      rw [modelAt_bottom_length t hwf hne] at hlt
      omega
    rw [walk_apex_congr t hwf v (t.length - 1) (by omega) ep.1 hlt2]

/-! ## Concrete instances -/

/-- The 4-row example triangle from the problem statement. -/
def exTriangle : List (List Int) := [[3], [7, 4], [2, 4, 6], [8, 5, 9, 3]]

/-- The trellis the builder computes for `exTriangle`. -/
def exTrellis : List (List Cell) :=
  [[(3, 1)], [(10, 0), (7, -1)], [(12, 0), (14, -1), (13, -1)],
    [(20, 0), (19, 0), (23, -1), (16, -1)]]

/-- A 5-row triangle whose cell (4, 2) has two parents with equal
best sums but different stored offsets. -/
def tieTriangle : List (List Int) :=
  [[0], [0, 0], [1, 1, 2], [0, 1, 0, 0], [0, 0, 0, 0, 0]]

/-- The trellis the builder computes for `tieTriangle`. -/
def tieTrellis : List (List Cell) :=
  [[(0, 1)], [(0, 0), (0, -1)], [(1, 0), (1, -1), (2, -1)],
    [(1, 0), (2, -1), (2, 0), (2, -1)],
    [(1, 0), (2, 0), (2, 0), (2, -1), (2, -1)]]

/-- A malformed triangle: row 2 has 2 entries instead of 3. -/
def badTriangle : List (List Int) := [[3], [7, 4], [2, 4]]

/-- The trellis the builder computes for `badTriangle` without complaint. -/
def badTrellis : List (List Cell) :=
  [[(3, 1)], [(10, 0), (7, -1)], [(12, 0), (11, -1)]]

/-- C2: running `compute_trellis` followed by `compute_best_path` on the
4-row known-answer triangle returns the sum 23 and the path
[3, 7, 4, 9]; on the single-row triangle [[5]] it returns 5 and [5]. -/
theorem claim_C2 :
    (compute_trellis exTriangle).bind (compute_best_path exTriangle) =
      Except.ok (23, [3, 7, 4, 9]) ∧
    (compute_trellis [[5]]).bind (compute_best_path [[5]]) =
      Except.ok (5, [5]) := by
  exact ⟨rfl, rfl⟩

/-- C5 counterexample: on the malformed triangle `badTriangle` (row 2
has 2 entries, not 3) `compute_trellis` completes normally and returns
a full trellis; it signals no error of any kind, hence no ShapeError. -/
theorem claim_C5_counterexample :
    compute_trellis badTriangle = Except.ok badTrellis := rfl

/-- C5 amended: `compute_trellis` performs no shape validation, and no
ShapeError exists in the code: on a malformed triangle it either
completes normally with a trellis mirroring the input's ragged shape
(as on `badTriangle`), or fails with the built-in IndexError when an
interior cell's parent index falls outside the previous row (as on the
second triangle below) - never with a ShapeError. -/
theorem claim_C5_amended :
    compute_trellis badTriangle = Except.ok badTrellis ∧
    badTrellis.map List.length = badTriangle.map List.length ∧
    compute_trellis [[1], [2, 3], [4, 5, 6, 7, 8]] =
      Except.error PyErr.indexError := by
  exact ⟨rfl, rfl, rfl⟩

/-- C6 counterexample: on a zero-row triangle both the builder and the
reconstruction raise the built-in IndexError; no EmptyTriangleError
class exists in the code (the embedded error type enumerates every
exception the code can raise, and it has no such constructor). -/
theorem claim_C6_counterexample :
    compute_trellis ([] : List (List Int)) = Except.error PyErr.indexError ∧
    compute_best_path ([] : List (List Int)) ([] : List (List Cell)) =
      Except.error PyErr.indexError := by
  exact ⟨rfl, rfl⟩

/-- C6 amended: a zero-row triangle makes both `compute_trellis` and
`compute_best_path` fail with the built-in IndexError (not a dedicated
EmptyTriangleError, which the code does not define), and the failure
propagates with no partial result. -/
theorem claim_C6_amended :
    compute_trellis ([] : List (List Int)) = Except.error PyErr.indexError ∧
    compute_best_path ([] : List (List Int)) ([] : List (List Cell)) =
      Except.error PyErr.indexError ∧
    (compute_trellis ([] : List (List Int))).toOption = none ∧
    (compute_best_path ([] : List (List Int)) ([] : List (List Cell))).toOption
      = none := by
  exact ⟨rfl, rfl, rfl, rfl⟩

theorem tupGt_fst_le {x y : Cell} (h : tupGt x y = true) : y.1 ≤ x.1 := by
  unfold tupGt at h
  simp only [Bool.or_eq_true, Bool.and_eq_true, decide_eq_true_eq] at h
  rcases h with h | ⟨h, _⟩
  · omega
  · omega

theorem tupGt_not_fst_le {x y : Cell} (h : ¬ tupGt x y = true) : x.1 ≤ y.1 := by
  unfold tupGt at h
  simp only [Bool.or_eq_true, Bool.and_eq_true, decide_eq_true_eq, not_or] at h
  exact Int.not_lt.mp h.1

/-- C1: for every well-formed non-empty triangle and every cell `(i, j)`,
the `best_sum` stored by `compute_trellis` equals the maximum, over all
valid apex-to-`(i, j)` paths, of the sum of triangle values along the
path: some path attains it, and it bounds every path. -/
theorem claim_C1 (t : List (List Int)) (T : List (List Cell)) (hwf : WF t)
    (hne : t ≠ []) (hT : compute_trellis t = Except.ok T)
    (i j : Nat) (hi : i < t.length) (hj : j ≤ i) :
    (∃ p ∈ pathsTo i j, pathSum t p = (cellAt T i j).1) ∧
    (∀ p ∈ pathsTo i j, pathSum t p ≤ (cellAt T i j).1) := by
  have hTm : T = trellisModel t := by
    have h := compute_trellis_ok t hwf hne
    rw [hT] at h
    exact Except.ok.inj h
  subst hTm
  rw [cellAt_trellisModel t hi]
  exact model_best_spec t hwf i hi j hj

/-- C1 witness at the known-answer triangle, cell (3, 2): `best_sum` 23
is the maximum path sum to that cell. -/
theorem claim_C1_witness :
    (∃ p ∈ pathsTo 3 2, pathSum exTriangle p = (cellAt exTrellis 3 2).1) ∧
    (∀ p ∈ pathsTo 3 2, pathSum exTriangle p ≤ (cellAt exTrellis 3 2).1) :=
  claim_C1 exTriangle exTrellis (by decide) (by decide) rfl 3 2 (by decide)
    (by decide)

/-- C3: the trellis of `compute_trellis` satisfies the DP invariant: an
interior cell holds the triangle value plus the larger parent sum, its
offset is `-1` or `0` and points at a parent attaining that maximum;
the left edge copies its single parent with offset `0`, the right edge
with offset `-1`. -/
theorem claim_C3 (t : List (List Int)) (T : List (List Cell)) (hwf : WF t)
    (hne : t ≠ []) (hT : compute_trellis t = Except.ok T) (i j : Nat)
    (hi : i < t.length) :
    (1 ≤ i → 1 ≤ j → j < i →
      (cellAt T i j).1 = valAt t i j +
        max (cellAt T (i - 1) (j - 1)).1 (cellAt T (i - 1) j).1 ∧
      ((cellAt T i j).2 = -1 ∨ (cellAt T i j).2 = 0) ∧
      (cellAt T (i - 1) (((j : Int) + (cellAt T i j).2).toNat)).1 =
        max (cellAt T (i - 1) (j - 1)).1 (cellAt T (i - 1) j).1) ∧
    (1 ≤ i → cellAt T i 0 = ((cellAt T (i - 1) 0).1 + valAt t i 0, 0)) ∧
    (1 ≤ i → cellAt T i i = ((cellAt T (i - 1) (i - 1)).1 + valAt t i i, -1)) := by
  have hTm : T = trellisModel t := by
    have h := compute_trellis_ok t hwf hne
    rw [hT] at h
    exact Except.ok.inj h
  subst hTm
  refine ⟨?_, ?_, ?_⟩
  · intro h1 hj1 hji
    obtain ⟨i2, rfl⟩ : ∃ i2, i = i2 + 1 := ⟨i - 1, by omega⟩
    simp only [Nat.add_sub_cancel]
    rw [cellAt_trellisModel t hi, cellAt_trellisModel t (by omega),
      cellAt_trellisModel t (by omega)]
    have hcell := mcell_interior t hwf hi hj1 (by omega)
    have hfst : (mcell t (i2 + 1) j).1 =
        max (mcell t i2 (j - 1)).1 (mcell t i2 j).1 + valAt t (i2 + 1) j := by
      rw [hcell, interior_fst]
      rfl
    by_cases hgt : tupGt ((modelAt t i2).getD j (0, 0))
        ((modelAt t i2).getD (j - 1) (0, 0))
    · have hc2 : mcell t (i2 + 1) j =
          ((mcell t i2 j).1 + valAt t (i2 + 1) j, 0) := by
        rw [hcell]
        unfold interiorCell
        rw [if_pos hgt]
        rfl
      refine ⟨by rw [hfst]; ring, by rw [hc2]; exact Or.inr rfl, ?_⟩
      rw [hc2]
      rw [show ((j : Int) + ((mcell t i2 j).1 + valAt t (i2 + 1) j, (0 : Int)).2).toNat
        = j from by simp]
      have hle : (mcell t i2 (j - 1)).1 ≤ (mcell t i2 j).1 := tupGt_fst_le hgt
      rw [max_eq_right hle]
      rw [cellAt_trellisModel t (by omega)]
    · have hc2 : mcell t (i2 + 1) j =
          ((mcell t i2 (j - 1)).1 + valAt t (i2 + 1) j, -1) := by
        rw [hcell]
        unfold interiorCell
        rw [if_neg hgt]
        rfl
      refine ⟨by rw [hfst]; ring, by rw [hc2]; exact Or.inl rfl, ?_⟩
      rw [hc2]
      rw [show ((j : Int) +
        ((mcell t i2 (j - 1)).1 + valAt t (i2 + 1) j, (-1 : Int)).2).toNat
        = j - 1 from by simp; omega]
      have hle : (mcell t i2 j).1 ≤ (mcell t i2 (j - 1)).1 := tupGt_not_fst_le hgt
      rw [max_eq_left hle]
      rw [cellAt_trellisModel t (by omega)]
  · intro h1
    obtain ⟨i2, rfl⟩ : ∃ i2, i = i2 + 1 := ⟨i - 1, by omega⟩
    simp only [Nat.add_sub_cancel]
    rw [cellAt_trellisModel t hi, cellAt_trellisModel t (by omega)]
    exact mcell_left t hwf hi
  · intro h1
    obtain ⟨i2, rfl⟩ : ∃ i2, i = i2 + 1 := ⟨i - 1, by omega⟩
    simp only [Nat.add_sub_cancel]
    rw [cellAt_trellisModel t hi, cellAt_trellisModel t (by omega)]
    exact mcell_right t hwf hi

/-- C3 witness at the known-answer triangle, interior cell (3, 2) with
its two edge cells. -/
theorem claim_C3_witness :
    (1 ≤ 3 → 1 ≤ 2 → 2 < 3 →
      (cellAt exTrellis 3 2).1 = valAt exTriangle 3 2 +
        max (cellAt exTrellis 2 1).1 (cellAt exTrellis 2 2).1 ∧
      ((cellAt exTrellis 3 2).2 = -1 ∨ (cellAt exTrellis 3 2).2 = 0) ∧
      (cellAt exTrellis 2 (((2 : Nat) : Int) + (cellAt exTrellis 3 2).2).toNat).1 =
        max (cellAt exTrellis 2 1).1 (cellAt exTrellis 2 2).1) ∧
    (1 ≤ 3 → cellAt exTrellis 3 0 = ((cellAt exTrellis 2 0).1 + valAt exTriangle 3 0, 0)) ∧
    (1 ≤ 3 → cellAt exTrellis 3 3 = ((cellAt exTrellis 2 2).1 + valAt exTriangle 3 3, -1)) :=
  claim_C3 exTriangle exTrellis (by decide) (by decide) rfl 3 2 (by decide)

/-- C4 counterexample: in `tieTriangle` the two parents of cell (4, 2)
have equal best sums, yet `compute_trellis` stores offset `0` (RIGHT)
there, not `-1` (LEFT). -/
theorem claim_C4_counterexample :
    compute_trellis tieTriangle = Except.ok tieTrellis ∧
    (cellAt tieTrellis 3 1).1 = (cellAt tieTrellis 3 2).1 ∧
    (cellAt tieTrellis 4 2).2 = 0 ∧ (cellAt tieTrellis 4 2).2 ≠ -1 := by
  exact ⟨rfl, rfl, rfl, by decide⟩

/-- C4 amended: when the two parent sums are equal, the offset stored
at an interior cell follows the parents' stored offsets - the Python
`max` compares whole `(best_sum, parent_offset)` tuples, so RIGHT wins
exactly when the left parent's stored offset is smaller; LEFT is kept
otherwise (in particular on full ties). -/
theorem claim_C4_amended (t : List (List Int)) (T : List (List Cell))
    (hwf : WF t) (hne : t ≠ []) (hT : compute_trellis t = Except.ok T)
    (i j : Nat) (hi : i < t.length) (hj1 : 1 ≤ j) (hji : j < i)
    (htie : (cellAt T (i - 1) (j - 1)).1 = (cellAt T (i - 1) j).1) :
    (cellAt T i j).2 =
      if (cellAt T (i - 1) (j - 1)).2 < (cellAt T (i - 1) j).2 then 0 else -1 := by
  have hTm : T = trellisModel t := by
    have h := compute_trellis_ok t hwf hne
    rw [hT] at h
    exact Except.ok.inj h
  subst hTm
  obtain ⟨i2, rfl⟩ : ∃ i2, i = i2 + 1 := ⟨i - 1, by omega⟩
  simp only [Nat.add_sub_cancel] at htie ⊢
  rw [cellAt_trellisModel t hi]
  rw [cellAt_trellisModel t (by omega), cellAt_trellisModel t (by omega)] at htie ⊢
  have hcell := mcell_interior t hwf hi hj1 (by omega)
  have htie2 : ((modelAt t i2).getD (j - 1) (0, 0)).1 =
      ((modelAt t i2).getD j (0, 0)).1 := htie
  by_cases h2 : (mcell t i2 (j - 1)).2 < (mcell t i2 j).2
  · rw [if_pos h2]
    have h2b : ((modelAt t i2).getD (j - 1) (0, 0)).2 <
        ((modelAt t i2).getD j (0, 0)).2 := h2
    have hgt : tupGt ((modelAt t i2).getD j (0, 0))
        ((modelAt t i2).getD (j - 1) (0, 0)) = true := by
      unfold tupGt
      simp only [Bool.or_eq_true, Bool.and_eq_true, decide_eq_true_eq]
      exact Or.inr ⟨htie2, h2b⟩
    rw [hcell]
    unfold interiorCell
    rw [if_pos hgt]
  · rw [if_neg h2]
    have h2b : ¬ ((modelAt t i2).getD (j - 1) (0, 0)).2 <
        ((modelAt t i2).getD j (0, 0)).2 := h2
    have hgt : ¬ tupGt ((modelAt t i2).getD j (0, 0))
        ((modelAt t i2).getD (j - 1) (0, 0)) = true := by
      unfold tupGt
      simp only [Bool.or_eq_true, Bool.and_eq_true, decide_eq_true_eq, not_or,
        not_and]
      constructor
      · omega
      · intro _
        omega
    rw [hcell]
    unfold interiorCell
    rw [if_neg hgt]

/-- C4 amended witness at `tieTriangle`, cell (4, 2): the parent sums
tie and the stored offset follows the parent-offset comparison. -/
theorem claim_C4_amended_witness :
    (cellAt tieTrellis 4 2).2 =
      if (cellAt tieTrellis 3 1).2 < (cellAt tieTrellis 3 2).2 then 0 else -1 :=
  claim_C4_amended tieTriangle tieTrellis (by decide) (by decide) rfl 4 2
    (by decide) (by decide) (by decide) (by decide)

theorem enum_map_getD (f : Nat × Nat → Int) (l : List Nat) {k : Nat}
    (hk : k < l.length) :
    (l.enum.map f).getD k 0 = f (k, l.getD k 0) := by
  rw [List.getD_eq_getElem _ _ (by simpa using hk)]
  rw [List.getD_eq_getElem _ _ hk]
  simp [List.getElem_enum]

/-- C7: `compute_best_path` selects from the bottom trellis row the
cell with the largest `best_sum`, breaking ties toward the lowest
column index, starts the backward walk there, and returns that largest
`best_sum` as the sum. -/
theorem claim_C7 (t : List (List Int)) (T : List (List Cell)) (hwf : WF t)
    (hne : t ≠ []) (hT : compute_trellis t = Except.ok T)
    (row : List Cell) (ep : Nat × Cell)
    (hrow : pyGet T (-1) = Except.ok row)
    (hep : py_max_enum row.enum = Except.ok ep) :
    ep.1 < row.length ∧ row.getD ep.1 (0, 0) = ep.2 ∧
    (∀ m, m < row.length → (row.getD m (0, 0)).1 ≤ ep.2.1) ∧
    (∀ m, m < ep.1 → (row.getD m (0, 0)).1 < ep.2.1) ∧
    (∀ s p, compute_best_path t T = Except.ok (s, p) → s = ep.2.1) := by
  have hTm : T = trellisModel t := by
    have h := compute_trellis_ok t hwf hne
    rw [hT] at h
    exact Except.ok.inj h
  subst hTm
  have hn : 0 < t.length := List.length_pos.mpr hne
  rw [pyGet_neg_one (List.ne_nil_of_length_pos
    (by rw [trellisModel_length]; omega)) []] at hrow
  have hrow2 := Except.ok.inj hrow
  rw [trellisModel_length, trellisModel_getD t (by omega)] at hrow2
  subst hrow2
  obtain ⟨ep2, hep2, hlt2, hgetD2, hub2, hmin2⟩ :=
    py_max_enum_spec (modelAt t (t.length - 1))
      (List.ne_nil_of_length_pos (by rw [modelAt_bottom_length t hwf hne]; omega))
  rw [hep] at hep2
  obtain rfl := Except.ok.inj hep2
  refine ⟨hlt2, hgetD2, hub2, hmin2, ?_⟩
  intro s p hsp
  obtain ⟨ep3, p3, hep3, _, _, _, _, _, _, hrun⟩ :=
    compute_best_path_model t hwf hne
  have hee : ep = ep3 := Except.ok.inj (hep.symm.trans hep3)
  rw [hrun] at hsp
  have hpair := Except.ok.inj hsp
  rw [hee]
  exact (congrArg Prod.fst hpair).symm

/-- The bottom row of the trellis of the known-answer triangle. -/
def exBottom : List Cell := [(20, 0), (19, 0), (23, -1), (16, -1)]

/-- The endpoint `compute_best_path` selects for the known-answer
triangle: column 2, cell `(23, -1)`. -/
def exEndpoint : Nat × Cell := (2, (23, -1))

/-- C7 witness at the known-answer triangle: the endpoint is column 2
with `best_sum` 23, the row maximum, and the returned sum is 23. -/
theorem claim_C7_witness :
    exEndpoint.1 < exBottom.length ∧
    exBottom.getD exEndpoint.1 (0, 0) = exEndpoint.2 ∧
    (∀ m, m < exBottom.length → (exBottom.getD m (0, 0)).1 ≤ exEndpoint.2.1) ∧
    (∀ m, m < exEndpoint.1 → (exBottom.getD m (0, 0)).1 < exEndpoint.2.1) ∧
    (∀ s p, compute_best_path exTriangle exTrellis = Except.ok (s, p) →
      s = exEndpoint.2.1) :=
  claim_C7 exTriangle exTrellis (by decide) (by decide) rfl exBottom exEndpoint
    rfl rfl

/-- C8: the reconstructed path has one value per triangle row, sums to
the reported maximum, and its elements follow an apex-to-bottom column
sequence whose consecutive columns differ by 0 or 1. -/
theorem claim_C8 (t : List (List Int)) (T : List (List Cell)) (hwf : WF t)
    (hne : t ≠ []) (hT : compute_trellis t = Except.ok T) (s : Int)
    (p : List Int) (hr : compute_best_path t T = Except.ok (s, p)) :
    p.length = t.length ∧ p.sum = s ∧
    ∃ jend cols, jend < t.length ∧ cols ∈ pathsTo (t.length - 1) jend ∧
      p = cols.enum.map (fun q => valAt t q.1 q.2) ∧
      (∀ k, k < t.length → cols.getD k 0 ≤ k ∧
        p.getD k 0 = valAt t k (cols.getD k 0)) ∧
      (∀ k, k + 1 < t.length → cols.getD (k + 1) 0 = cols.getD k 0 ∨
        cols.getD (k + 1) 0 = cols.getD k 0 + 1) := by
  have hTm : T = trellisModel t := by
    have h := compute_trellis_ok t hwf hne
    rw [hT] at h
    exact Except.ok.inj h
  subst hTm
  have hn : 0 < t.length := List.length_pos.mpr hne
  obtain ⟨ep, cols, hep, hlt, hmem, hsum, hcell, hub, hmin, hrun⟩ :=
    compute_best_path_model t hwf hne
  rw [hrun] at hr
  have hpair := Except.ok.inj hr
  have hs : ep.2.1 = s := congrArg Prod.fst hpair
  have hp : cols.enum.map (fun q => valAt t q.1 q.2) = p :=
    congrArg Prod.snd hpair
  subst hp
  have hclen : cols.length = t.length := by
    have h := pathsTo_length hmem
    omega
  refine ⟨?_, ?_, ep.1, cols, hlt, hmem, rfl, ?_, ?_⟩
  · simp [List.enum_length, hclen]
  · show pathSum t cols = s
    rw [hsum, hcell]
    exact hs
  · intro k hk
    have hkc : k < cols.length := by omega
    refine ⟨pathsTo_col_le hmem k (by omega), ?_⟩
    rw [enum_map_getD _ _ hkc]
  · intro k hk
    exact pathsTo_adjacent hmem k (by omega)

/-- C8 witness at the known-answer triangle: the returned path
[3, 7, 4, 9] has length 4, sums to 23, and is a valid path. -/
theorem claim_C8_witness :
    ([3, 7, 4, 9] : List Int).length = exTriangle.length ∧
    ([3, 7, 4, 9] : List Int).sum = 23 ∧
    ∃ jend cols, jend < exTriangle.length ∧
      cols ∈ pathsTo (exTriangle.length - 1) jend ∧
      ([3, 7, 4, 9] : List Int) =
        cols.enum.map (fun q => valAt exTriangle q.1 q.2) ∧
      (∀ k, k < exTriangle.length → cols.getD k 0 ≤ k ∧
        ([3, 7, 4, 9] : List Int).getD k 0 = valAt exTriangle k (cols.getD k 0)) ∧
      (∀ k, k + 1 < exTriangle.length →
        cols.getD (k + 1) 0 = cols.getD k 0 ∨
        cols.getD (k + 1) 0 = cols.getD k 0 + 1) :=
  claim_C8 exTriangle exTrellis (by decide) (by decide) rfl 23 [3, 7, 4, 9] rfl

/-- C9: every non-apex trellis cell stores offset -1 or 0; the apex
stores the dummy value 1; and the result of `compute_best_path` does
not depend on the value stored in the apex offset. -/
theorem claim_C9 (t : List (List Int)) (T : List (List Cell)) (hwf : WF t)
    (hne : t ≠ []) (hT : compute_trellis t = Except.ok T) :
    (∀ i j : Nat, i < t.length → j ≤ i → ¬(i = 0 ∧ j = 0) →
      (cellAt T i j).2 = -1 ∨ (cellAt T i j).2 = 0) ∧
    (cellAt T 0 0).2 = 1 ∧
    (∀ v : Int, compute_best_path t (T.set 0 [((cellAt T 0 0).1, v)]) =
      compute_best_path t T) := by
  have hTm : T = trellisModel t := by
    have h := compute_trellis_ok t hwf hne
    rw [hT] at h
    exact Except.ok.inj h
  subst hTm
  have hn : 0 < t.length := List.length_pos.mpr hne
  refine ⟨?_, ?_, ?_⟩
  · intro i j hi hj hne0
    have hi1 : 1 ≤ i := by
      rcases Nat.eq_zero_or_pos i with h0 | h1
      · subst h0
        exact absurd ⟨rfl, by omega⟩ hne0
      · exact h1
    obtain ⟨i2, rfl⟩ : ∃ i2, i = i2 + 1 := ⟨i - 1, by omega⟩
    rw [cellAt_trellisModel t hi]
    obtain ⟨_, _, _, hoff⟩ := mcell_step t hwf hi hj
    exact hoff
  · rw [cellAt_trellisModel t hn]
    rfl
  · intro v
    rw [cellAt_trellisModel t hn]
    show compute_best_path t
      ((trellisModel t).set 0 [(valAt t 0 0, v)]) = _
    exact best_path_apex_congr t hwf hne v

/-- C9 witness at the known-answer triangle. -/
theorem claim_C9_witness :
    (∀ i j : Nat, i < exTriangle.length → j ≤ i → ¬(i = 0 ∧ j = 0) →
      (cellAt exTrellis i j).2 = -1 ∨ (cellAt exTrellis i j).2 = 0) ∧
    (cellAt exTrellis 0 0).2 = 1 ∧
    (∀ v : Int, compute_best_path exTriangle
      (exTrellis.set 0 [((cellAt exTrellis 0 0).1, v)]) =
      compute_best_path exTriangle exTrellis) :=
  claim_C9 exTriangle exTrellis (by decide) (by decide) rfl

/-- C10: the backward walk stays in bounds: stepping from any cell
`(i, j)` with `0 <= j <= i` by the stored offset lands in
`0 <= j' <= i - 1`; the selected endpoint column is a valid bottom-row
index; and `compute_best_path` succeeds on the built trellis. -/
theorem claim_C10 (t : List (List Int)) (T : List (List Cell)) (hwf : WF t)
    (hne : t ≠ []) (hT : compute_trellis t = Except.ok T) :
    (∀ i j : Nat, 1 ≤ i → i < t.length → j ≤ i →
      0 ≤ (j : Int) + (cellAt T i j).2 ∧
      (j : Int) + (cellAt T i j).2 ≤ (i : Int) - 1) ∧
    (∀ row ep, pyGet T (-1) = Except.ok row →
      py_max_enum row.enum = Except.ok ep → ep.1 ≤ t.length - 1) ∧
    (∃ r, compute_best_path t T = Except.ok r) := by
  have hTm : T = trellisModel t := by
    have h := compute_trellis_ok t hwf hne
    rw [hT] at h
    exact Except.ok.inj h
  subst hTm
  have hn : 0 < t.length := List.length_pos.mpr hne
  refine ⟨?_, ?_, ?_⟩
  · intro i j h1 hi hj
    obtain ⟨i2, rfl⟩ : ∃ i2, i = i2 + 1 := ⟨i - 1, by omega⟩
    rw [cellAt_trellisModel t hi]
    obtain ⟨j2, hj2, hcast, _⟩ := mcell_step t hwf hi hj
    constructor
    · omega
    · omega
  · intro row ep hrow hep
    rw [pyGet_neg_one (List.ne_nil_of_length_pos
      (by rw [trellisModel_length]; omega)) []] at hrow
    have hrow2 := Except.ok.inj hrow
    rw [trellisModel_length, trellisModel_getD t (by omega)] at hrow2
    subst hrow2
    obtain ⟨ep2, hep2, hlt2, _, _, _⟩ :=
      py_max_enum_spec (modelAt t (t.length - 1))
        (List.ne_nil_of_length_pos
          (by rw [modelAt_bottom_length t hwf hne]; omega))
    rw [hep] at hep2
    obtain rfl := Except.ok.inj hep2
    rw [modelAt_bottom_length t hwf hne] at hlt2
    omega
  · obtain ⟨ep, p, _, _, _, _, _, _, _, hrun⟩ :=
      compute_best_path_model t hwf hne
    exact ⟨_, hrun⟩

/-- C10 witness at the known-answer triangle. -/
theorem claim_C10_witness :
    (∀ i j : Nat, 1 ≤ i → i < exTriangle.length → j ≤ i →
      0 ≤ (j : Int) + (cellAt exTrellis i j).2 ∧
      (j : Int) + (cellAt exTrellis i j).2 ≤ (i : Int) - 1) ∧
    (∀ row ep, pyGet exTrellis (-1) = Except.ok row →
      py_max_enum row.enum = Except.ok ep → ep.1 ≤ exTriangle.length - 1) ∧
    (∃ r, compute_best_path exTriangle exTrellis = Except.ok r) :=
  claim_C10 exTriangle exTrellis (by decide) (by decide) rfl
